import Mathlib

set_option maxRecDepth 8000

/- Shallow embedding of gen.py, a track-meet heat-sheet generator.
   Python floats are modeled as rationals.  The global random generator is
   modeled as an explicit state: a shuffle permutation consumed by
   random.shuffle plus a stream of standard-normal draws consumed by
   random.gauss.  The in-place reordering that random.shuffle performs on an
   event entry list is modeled by returning the reordered list alongside the
   heats. -/

inductive Team
  | one
  | two
deriving DecidableEq

inductive EventKind
  | track
  | field
  | relay
  | fieldRelay
deriving DecidableEq

/- EventKind.is_run: self in (TRACK, RELAY). -/
def EventKind.is_run : EventKind → Bool
  | EventKind.track => true
  | EventKind.relay => true
  | _ => false

structure Athlete where
  name : String
  team : Team
deriving DecidableEq

structure EventDef where
  name : String
  duration : Int
  entries : List Athlete
  kind : EventKind
  max_heat_size : Int
  average : ℚ
  std_dev : ℚ
deriving DecidableEq

structure Event where
  name : String
  time : String
  heats : List (List (Athlete × String))
  kind : EventKind
  average : ℚ
  std_dev : ℚ
deriving DecidableEq

/- Decimal digit rendering for numbers, used to model Python string
   formatting.  natDigitsRev produces the digits of n least significant
   first; the fuel argument makes the recursion structural and hence
   kernel-computable. -/

def digitChar : Nat → Char
  | 0 => '0'
  | 1 => '1'
  | 2 => '2'
  | 3 => '3'
  | 4 => '4'
  | 5 => '5'
  | 6 => '6'
  | 7 => '7'
  | 8 => '8'
  | 9 => '9'
  | _ => '*'

def natDigitsRev : Nat → Nat → List Nat
  | 0, _ => []
  | fuel + 1, n => if n = 0 then [] else n % 10 :: natDigitsRev fuel (n / 10)

def renderNat (n : Nat) : List Char :=
  if n = 0 then ['0'] else ((natDigitsRev (n + 1) n).reverse).map digitChar

def renderInt (i : Int) : List Char :=
  if i < 0 then '-' :: renderNat i.natAbs else renderNat i.toNat

def pad2 (k : Nat) : List Char := [digitChar (k / 10), digitChar (k % 10)]

/- Rounding to the nearest integer with ties going to the even integer, the
   rounding used by Python float formatting with a fixed number of decimals. -/
def roundHalfEven (x : ℚ) : Int :=
  if x - (⌊x⌋ : ℚ) < 1 / 2 then ⌊x⌋
  else if 1 / 2 < x - (⌊x⌋ : ℚ) then ⌊x⌋ + 1
  else if ⌊x⌋ % 2 = 0 then ⌊x⌋ else ⌊x⌋ + 1

/- Python float modulus for a positive right operand: x % y = x - y * floor(x / y). -/
def pyMod (x y : ℚ) : ℚ := x - y * (⌊x / y⌋ : ℚ)

/- Python f-string "{x:.2f}". -/
def fmtFixed2 (x : ℚ) : String :=
  (if roundHalfEven (100 * x) < 0 then ("-") else ("")) ++
    String.mk (renderNat ((roundHalfEven (100 * x)).natAbs / 100)) ++ (".") ++
    String.mk (pad2 ((roundHalfEven (100 * x)).natAbs % 100))

/- format_seed_time from gen.py:
     if average < 60: return f"{seed_time:.2f}"
     truncated_seconds = math.floor(seed_time % 60 * 10) / 10
     return f"{int(seed_time // 60)}:{truncated_seconds:04.1f}"
   The seconds component k/10 (k = floor(seed_time % 60 * 10) < 600) renders
   under "04.1f" as two zero-padded integer digits, a dot, and one digit. -/
def format_seed_time (seed_time : ℚ) (average : ℚ) : String :=
  if average < 60 then fmtFixed2 seed_time
  else
    String.mk (renderInt ⌊seed_time / 60⌋) ++ (":") ++
      String.mk (pad2 ((⌊pyMod seed_time 60 * 10⌋).toNat / 10)) ++ (".") ++
      String.mk [digitChar ((⌊pyMod seed_time 60 * 10⌋).toNat % 10)]

/- A parser mapping a formatted mark string back to its numeric value:
   "M:SS.S" becomes 60*M + SS.S, "S.SS" becomes S.SS. -/

def splitOnChar (c : Char) : List Char → List (List Char)
  | [] => [[]]
  | x :: xs =>
    if x = c then [] :: splitOnChar c xs
    else
      match splitOnChar c xs with
      | [] => [[x]]
      | g :: gs => (x :: g) :: gs

def parseNatChars (cs : List Char) : Nat :=
  cs.foldl (fun a c => a * 10 + (c.toNat - 48)) 0

def parseFixedChars (cs : List Char) : ℚ :=
  match splitOnChar '.' cs with
  | [i] => (parseNatChars i : ℚ)
  | [i, f] => (parseNatChars i : ℚ) + (parseNatChars f : ℚ) / ((10 : ℚ) ^ f.length)
  | _ => 0

def parseMark (s : String) : ℚ :=
  match splitOnChar ':' s.data with
  | [one] => parseFixedChars one
  | [mins, rest] => 60 * (parseNatChars mins : ℚ) + parseFixedChars rest
  | _ => 0

/- The global random generator state consumed by make_heats: the permutation
   applied by random.shuffle and the stream of draws behind random.gauss
   (random.gauss(avg, sd) = avg + sd * z for a standard-normal z). -/
structure Rng where
  perm : List Nat
  gauss : Nat → ℚ

def Rng.Valid (rng : Rng) (n : Nat) : Prop := rng.perm.Perm (List.range n)

def dAth : Athlete := { name := "", team := Team.one }

def applyPerm (p : List Nat) (l : List Athlete) : List Athlete :=
  p.filterMap (fun i => l[i]?)

/- times = [max(0, random.gauss(avg, std_dev)) for _ in range(len(entries))] -/
def gaussTimes (avg std_dev : ℚ) (g : Nat → ℚ) (n : Nat) : List ℚ :=
  (List.range n).map (fun k => max 0 (avg + std_dev * g k))

/- Python list.sort() and list.sort(reverse=True) on a list of numbers.  Any
   comparison sort gives the same result on values with a total order, so the
   sort is modeled by insertion sort. -/
def sortAsc (l : List ℚ) : List ℚ := l.insertionSort (fun a b => a ≤ b)

def sortDesc (l : List ℚ) : List ℚ := l.insertionSort (fun a b => b ≤ a)

/- Python range(start, stop, step); a zero step raises ValueError, which
   pyRange models by returning none. -/
def pyRangeLen (start stop step : Int) : Nat :=
  if 0 < step then ((stop - start + step - 1) / step).toNat
  else ((start - stop + (-step) - 1) / (-step)).toNat

def pyRange (start stop step : Int) : Option (List Int) :=
  if step = 0 then none
  else some ((List.range (pyRangeLen start stop step)).map
    (fun k : Nat => start + step * (k : Int)))

def intRangeN (a : Int) (t : Nat) : List Int :=
  (List.range t).map (fun k : Nat => a + (k : Int))

/- Body of the inner loop of make_heats:
     mark = times.pop(0); heat.append((entries[j], <formatted mark>)).
   The list accesses use defaults; every reachable call is in bounds (the
   loop indices j stay below len(entries) and exactly len(entries) marks are
   popped). -/
def heat_step (entries : List Athlete) (fmt : ℚ → String) :
    List (Athlete × String) × List ℚ → Int → List (Athlete × String) × List ℚ :=
  fun acc j => (acc.1 ++ [(entries.getD j.toNat dAth, fmt (acc.2.headD 0))], acc.2.tail)

/- Body of the outer loop of make_heats: build the heat for the slice
   starting at i, i.e. for j in range(i, min(i + max_heat_size, len(entries))). -/
def heats_step (entries : List Athlete) (max_heat_size : Int) (fmt : ℚ → String) :
    List (List (Athlete × String)) × List ℚ → Int →
      List (List (Athlete × String)) × List ℚ :=
  fun acc i =>
    let inner := (intRangeN i (min (i + max_heat_size) (entries.length : Int) - i).toNat).foldl
      (heat_step entries fmt) ([], acc.2)
    (acc.1 ++ [inner.1], inner.2)

/- Per-entrant mark formatting inside make_heats:
     if is_run: mark = format_seed_time(mark, avg) else: mark = f"{mark:.2f}" -/
def runFmt (is_run : Bool) (avg : ℚ) : ℚ → String :=
  fun m => if is_run then format_seed_time m avg else fmtFixed2 m

/- make_heats from gen.py.  random.shuffle(entries) reorders the entry list
   in place; the reordered list is the second component of the result. -/
def make_heats (entries : List Athlete) (max_heat_size : Int) (avg : ℚ) (std_dev : ℚ)
    (is_run : Bool) (rng : Rng) :
    Except String (List (List (Athlete × String)) × List Athlete) :=
  let shuffled := applyPerm rng.perm entries
  let times0 := gaussTimes avg std_dev rng.gauss shuffled.length
  let times := if is_run then sortAsc times0 else sortDesc times0
  match pyRange 0 (shuffled.length : Int) max_heat_size with
  | none => Except.error ("range() arg 3 must not be zero")
  | some starts =>
    Except.ok
      ((starts.foldl (heats_step shuffled max_heat_size (runFmt is_run avg)) ([], times)).1,
        shuffled)

/- Reference chunking function: contiguous slices of size m (last one
   possibly shorter), with fuel to keep the recursion structural. -/
def chunksF {α : Type} : Nat → Nat → List α → List (List α)
  | 0, _, _ => []
  | fuel + 1, m, l =>
    match l with
    | [] => []
    | _ :: _ => l.take m :: chunksF fuel m (l.drop m)

def chunks {α : Type} (m : Nat) (l : List α) : List (List α) := chunksF l.length m l

def chunkSizesF : Nat → Nat → Nat → List Nat
  | 0, _, _ => []
  | fuel + 1, m, n => if n = 0 then [] else min m n :: chunkSizesF fuel m (n - m)

def chunkSizes (m n : Nat) : List Nat := chunkSizesF n m n

/- The schedule recurrence of generate_heat_sheet: the first event gets the
   initial time, each later event gets previous + duration + gap (times in
   minutes). -/
def scheduleTimes (durations : List Int) (t gap : Int) : List Int :=
  match durations with
  | [] => []
  | d :: rest => t :: scheduleTimes rest (t + d + gap) gap

/- start_time.strftime("%-I:%M %p") for a time t in minutes (12-hour clock,
   no leading zero on the hour, zero-padded minutes, AM/PM). -/
def strftime12 (t : Int) : String :=
  String.mk (renderNat (if t.toNat / 60 % 24 % 12 = 0 then 12 else t.toNat / 60 % 24 % 12)) ++
    (":") ++ String.mk (pad2 (t.toNat % 60)) ++ (" ") ++
    (if t.toNat / 60 % 24 < 12 then ("AM") else ("PM"))

/- The event-processing loop of generate_heat_sheet (lines 158-177): walk the
   event list, call make_heats on each event entry list, stamp the running
   clock time, then advance it by duration + gap.  Each event consumes its
   own random state from the stream rngs. -/
def proc_events (rngs : Nat → Rng) (gap : Int) :
    List EventDef → Int → Nat → Except String (List Event)
  | [], _, _ => Except.ok []
  | e :: rest, t, k =>
    match make_heats e.entries e.max_heat_size e.average e.std_dev e.kind.is_run (rngs k) with
    | Except.error s => Except.error s
    | Except.ok hs =>
      match proc_events rngs gap rest (t + e.duration + gap) (k + 1) with
      | Except.error s => Except.error s
      | Except.ok evs =>
        Except.ok
          ({ name := e.name, time := strftime12 t, heats := hs.1, kind := e.kind,
             average := e.average, std_dev := e.std_dev } :: evs)

/- parse_entries from gen.py.  CSV rows are modeled as records that already
   carry the two required fields; the two dict arguments are modeled as
   lookup functions; printed diagnostics are collected in a list. -/

structure Row where
  name : String
  listOfEvents : String

def normalizeStr (s : String) : String := s.trim.toLower

def setdefault_append (m : List (String × List Athlete)) (k : String) (a : Athlete) :
    List (String × List Athlete) :=
  match m with
  | [] => [(k, [a])]
  | (k0, l) :: rest =>
    if k0 = k then (k0, l ++ [a]) :: rest else (k0, l) :: setdefault_append rest k a

def lookupEntry (m : List (String × List Athlete)) (k : String) : Option (List Athlete) :=
  match m with
  | [] => none
  | (k0, l) :: rest => if k0 = k then some l else lookupEntry rest k

/- One (athlete, event-label) pairing inside the row loop: look up the event,
   then the athlete; on success append to entry_map under the lowercased
   canonical event name, otherwise record a diagnostic and move on. -/
def process_pairing (name_map : String → Option Athlete) (event_map : String → Option EventDef)
    (athlete_name : String) :
    List (String × List Athlete) × List String → String →
      List (String × List Athlete) × List String :=
  fun acc event_name =>
    match event_map event_name with
    | none => (acc.1, acc.2 ++ [("Event ") ++ event_name ++ (" not found in event map.")])
    | some event =>
      match name_map athlete_name with
      | none => (acc.1, acc.2 ++ [("Athlete ") ++ athlete_name ++ (" not found in name map.")])
      | some athlete => (setdefault_append acc.1 event.name.toLower athlete, acc.2)

def process_row (name_map : String → Option Athlete) (event_map : String → Option EventDef) :
    List (String × List Athlete) × List String → Row →
      List (String × List Athlete) × List String :=
  fun acc row =>
    ((row.listOfEvents.trim.splitOn (",")).map normalizeStr).foldl
      (process_pairing name_map event_map (normalizeStr row.name)) acc

/- Final loop of parse_entries: events found in entry_map get their entries
   replaced; the others keep their entries and produce a diagnostic. -/
def finalize_event (entry_map : List (String × List Athlete)) :
    List EventDef × List String → EventDef → List EventDef × List String :=
  fun acc event =>
    match lookupEntry entry_map event.name.toLower with
    | some l => (acc.1 ++ [{ event with entries := l }], acc.2)
    | none =>
      (acc.1 ++ [event],
        acc.2 ++ [("No entries found for event ") ++ event.name.toLower ++ (".")])

def parse_entries (rows : List Row) (events : List EventDef)
    (name_map : String → Option Athlete) (event_map : String → Option EventDef) :
    List EventDef × List String :=
  let parsed := rows.foldl (process_row name_map event_map) ([], [])
  let final := events.foldl (finalize_event parsed.1) ([], parsed.2)
  (final.1, final.2 ++ [("Entries parsed successfully.")])

/- Helper values and functions used only in the statements and proofs below. -/

def ofDigitsRev : List Nat → Nat
  | [] => 0
  | d :: ds => d + 10 * ofDigitsRev ds

/- Numeric value denoted by the "{x:.2f}" rendering of x. -/
def rhe2 (x : ℚ) : ℚ := ((roundHalfEven (100 * x) : ℤ) : ℚ) / 100

/- Numeric value denoted by the minutes:seconds rendering with the seconds
   truncated to one decimal: x truncated to tenths. -/
def floorTenths (x : ℚ) : ℚ := ((⌊10 * x⌋ : ℤ) : ℚ) / 10

/- Non-decreasing for timed kinds, non-increasing for measured kinds. -/
def monoRel (is_run : Bool) : ℚ → ℚ → Prop :=
  fun a b => if is_run then a ≤ b else b ≤ a

/- The numeric value a formatted mark denotes, as a function of the raw
   mark: truncation to tenths for the minutes:seconds branch, rounding to
   hundredths otherwise. -/
def quant (is_run : Bool) (avg : ℚ) : ℚ → ℚ :=
  fun x => if is_run then (if 60 ≤ avg then floorTenths x else rhe2 x) else rhe2 x

/- Concrete inputs used by the witness theorems. -/

def athA : Athlete := { name := "Aleksei", team := Team.one }

def athB : Athlete := { name := "Nico", team := Team.two }

def athC : Athlete := { name := "Sean", team := Team.two }

def rngSwap : Rng := { perm := [1, 0], gauss := fun _ => 0 }

def rngOne : Rng := { perm := [0], gauss := fun _ => 0 }

def rowX : Row := { name := "Bob", listOfEvents := "100m" }

def rngId3 : Rng := { perm := [0, 1, 2], gauss := fun _ => 0 }

def rngNil : Rng := { perm := [], gauss := fun _ => 0 }

def rngsNil : Nat → Rng := fun _ => rngNil

def evD (name : String) (dur : Int) : EventDef :=
  { name := name, duration := dur, entries := [], kind := EventKind.track,
    max_heat_size := 4, average := 10, std_dev := 1 }

/- Digit rendering and parsing round trips. -/

theorem digitChar_toNat (d : Nat) (h : d < 10) : (digitChar d).toNat = 48 + d := by
  interval_cases d <;> rfl

theorem digitChar_isDigit (d : Nat) (h : d < 10) : (digitChar d).isDigit = true := by
  interval_cases d <;> rfl

theorem natDigitsRev_lt (fuel : Nat) :
    ∀ n : Nat, ∀ d ∈ natDigitsRev fuel n, d < 10 := by
  induction fuel with
  | zero => intro n d hd; simp [natDigitsRev] at hd
  | succ fuel ih =>
    intro n d hd
    rw [natDigitsRev] at hd
    by_cases h : n = 0
    · simp [h] at hd
    · rw [if_neg h] at hd
      rcases List.mem_cons.mp hd with h1 | h1
      · omega
      · exact ih (n / 10) d h1

theorem ofDigitsRev_natDigitsRev (fuel : Nat) :
    ∀ n : Nat, n < fuel → ofDigitsRev (natDigitsRev fuel n) = n := by
  induction fuel with
  | zero => intro n hn; omega
  | succ fuel ih =>
    intro n hn
    by_cases h : n = 0
    · simp [h, natDigitsRev, ofDigitsRev]
    · rw [natDigitsRev, if_neg h, ofDigitsRev]
      have hlt : n / 10 < fuel := by
        have : n / 10 < n := Nat.div_lt_self (by omega) (by omega)
        omega
      rw [ih (n / 10) hlt]
      omega

theorem foldl_base10_reverse (ds : List Nat) :
    ∀ a : Nat, ds.reverse.foldl (fun a d => a * 10 + d) a =
      a * 10 ^ ds.length + ofDigitsRev ds := by
  induction ds with
  | nil => intro a; simp [ofDigitsRev]
  | cons d ds ih =>
    intro a
    rw [List.reverse_cons, List.foldl_append, ih a]
    simp only [List.foldl, ofDigitsRev, List.length_cons]
    ring

theorem parseNatChars_map_digitChar (ds : List Nat) (h : ∀ d ∈ ds, d < 10) :
    parseNatChars (ds.map digitChar) = ds.foldl (fun a d => a * 10 + d) 0 := by
  unfold parseNatChars
  rw [List.foldl_map]
  exact List.foldl_ext _ _ 0 (fun a b hb => by rw [digitChar_toNat b (h b hb)]; omega)

theorem parseNatChars_renderNat (n : Nat) : parseNatChars (renderNat n) = n := by
  unfold renderNat
  by_cases h : n = 0
  · simp [h, parseNatChars]
  · rw [if_neg h, parseNatChars_map_digitChar _
      (fun d hd => natDigitsRev_lt (n + 1) n d (List.mem_reverse.mp hd)),
      foldl_base10_reverse]
    simp [ofDigitsRev_natDigitsRev (n + 1) n (by omega)]

theorem renderNat_isDigit (n : Nat) : ∀ c ∈ renderNat n, c.isDigit = true := by
  intro c hc
  unfold renderNat at hc
  by_cases h : n = 0
  · simp [h] at hc; simp [hc]
  · rw [if_neg h] at hc
    rcases List.mem_map.mp hc with ⟨d, hd, rfl⟩
    exact digitChar_isDigit d (natDigitsRev_lt (n + 1) n d (List.mem_reverse.mp hd))

theorem pad2_parse (k : Nat) (h : k < 100) : parseNatChars (pad2 k) = k := by
  unfold pad2 parseNatChars
  simp only [List.foldl]
  rw [digitChar_toNat (k / 10) (by omega), digitChar_toNat (k % 10) (by omega)]
  omega

theorem pad2_isDigit (k : Nat) (h : k < 100) : ∀ c ∈ pad2 k, c.isDigit = true := by
  intro c hc
  unfold pad2 at hc
  rcases List.mem_cons.mp hc with h1 | h1
  · subst h1; exact digitChar_isDigit _ (by omega)
  · rcases List.mem_cons.mp h1 with h2 | h2
    · subst h2; exact digitChar_isDigit _ (by omega)
    · simp at h2

theorem single_digit_parse (b : Nat) (h : b < 10) :
    parseNatChars [digitChar b] = b := by
  unfold parseNatChars
  simp only [List.foldl]
  rw [digitChar_toNat b h]
  omega

theorem isDigit_ne_dot (c : Char) (h : c.isDigit = true) : c ≠ '.' := by
  intro h1; subst h1; simp at h

theorem isDigit_ne_colon (c : Char) (h : c.isDigit = true) : c ≠ ':' := by
  intro h1; subst h1; simp at h

/- splitOnChar facts. -/

theorem splitOnChar_of_not_mem (c : Char) (cs : List Char) (h : c ∉ cs) :
    splitOnChar c cs = [cs] := by
  induction cs with
  | nil => rfl
  | cons x xs ih =>
    have hx : ¬(x = c) := fun he => h (by simp [he])
    rw [splitOnChar, if_neg hx, ih (fun hm => h (List.mem_cons_of_mem x hm))]

theorem splitOnChar_ne_nil (c : Char) (cs : List Char) : splitOnChar c cs ≠ [] := by
  induction cs with
  | nil => simp [splitOnChar]
  | cons x xs ih =>
    rw [splitOnChar]
    by_cases hx : x = c
    · simp [hx]
    · rw [if_neg hx]
      rcases h : splitOnChar c xs with _ | ⟨g, gs⟩
      · exact absurd h ih
      · simp

theorem splitOnChar_append (c : Char) (A B : List Char) (hA : c ∉ A) :
    splitOnChar c (A ++ c :: B) = A :: splitOnChar c B := by
  induction A with
  | nil => simp [splitOnChar]
  | cons x xs ih =>
    have hx : ¬(x = c) := fun he => hA (by simp [he])
    rw [List.cons_append, splitOnChar, if_neg hx,
      ih (fun hm => hA (List.mem_cons_of_mem x hm))]

/- roundHalfEven and pyMod facts. -/

theorem roundHalfEven_ge_floor (x : ℚ) : ⌊x⌋ ≤ roundHalfEven x := by
  unfold roundHalfEven
  split_ifs <;> omega

theorem roundHalfEven_le_floor_add_one (x : ℚ) : roundHalfEven x ≤ ⌊x⌋ + 1 := by
  unfold roundHalfEven
  split_ifs <;> omega

theorem roundHalfEven_nonneg (x : ℚ) (h : 0 ≤ x) : 0 ≤ roundHalfEven x :=
  le_trans (Int.floor_nonneg.mpr h) (roundHalfEven_ge_floor x)

theorem roundHalfEven_mono (x y : ℚ) (h : x ≤ y) :
    roundHalfEven x ≤ roundHalfEven y := by
  rcases lt_or_le ⌊x⌋ ⌊y⌋ with hf | hf
  · calc roundHalfEven x ≤ ⌊x⌋ + 1 := roundHalfEven_le_floor_add_one x
      _ ≤ ⌊y⌋ := by omega
      _ ≤ roundHalfEven y := roundHalfEven_ge_floor y
  · have hfe : ⌊x⌋ = ⌊y⌋ := le_antisymm (Int.floor_mono h) hf
    have hfr : x - (⌊x⌋ : ℚ) ≤ y - (⌊y⌋ : ℚ) := by
      rw [hfe]; linarith
    unfold roundHalfEven
    rw [hfe]
    rw [hfe] at hfr
    split_ifs <;> first | omega | linarith

theorem rhe2_mono (x y : ℚ) (h : x ≤ y) : rhe2 x ≤ rhe2 y := by
  unfold rhe2
  have : roundHalfEven (100 * x) ≤ roundHalfEven (100 * y) :=
    roundHalfEven_mono _ _ (by linarith)
  have hc : ((roundHalfEven (100 * x) : ℤ) : ℚ) ≤ ((roundHalfEven (100 * y) : ℤ) : ℚ) := by
    exact_mod_cast this
  linarith

theorem floorTenths_mono (x y : ℚ) (h : x ≤ y) : floorTenths x ≤ floorTenths y := by
  unfold floorTenths
  have : ⌊10 * x⌋ ≤ ⌊10 * y⌋ := Int.floor_mono (by linarith)
  have hc : ((⌊10 * x⌋ : ℤ) : ℚ) ≤ ((⌊10 * y⌋ : ℤ) : ℚ) := by exact_mod_cast this
  linarith

theorem quant_mono (is_run : Bool) (avg x y : ℚ) (h : x ≤ y) :
    quant is_run avg x ≤ quant is_run avg y := by
  unfold quant
  split_ifs
  · exact floorTenths_mono x y h
  · exact rhe2_mono x y h
  · exact rhe2_mono x y h

theorem pyMod_eq_fract (x y : ℚ) (hy : y ≠ 0) : pyMod x y = y * Int.fract (x / y) := by
  unfold pyMod Int.fract
  field_simp

theorem pyMod_nonneg (x y : ℚ) (hy : 0 < y) : 0 ≤ pyMod x y := by
  rw [pyMod_eq_fract x y hy.ne']
  exact mul_nonneg hy.le (Int.fract_nonneg _)

theorem pyMod_lt (x y : ℚ) (hy : 0 < y) : pyMod x y < y := by
  rw [pyMod_eq_fract x y hy.ne']
  calc y * Int.fract (x / y) < y * 1 :=
        mul_lt_mul_of_pos_left (Int.fract_lt_one _) hy
    _ = y := mul_one y

theorem tenths_floor_nonneg (x : ℚ) : 0 ≤ ⌊pyMod x 60 * 10⌋ :=
  Int.floor_nonneg.mpr (mul_nonneg (pyMod_nonneg x 60 (by norm_num)) (by norm_num))

theorem tenths_floor_lt (x : ℚ) : (⌊pyMod x 60 * 10⌋).toNat < 600 := by
  have h1 : ⌊pyMod x 60 * 10⌋ < 600 := by
    rw [Int.floor_lt]
    have := pyMod_lt x 60 (by norm_num)
    push_cast
    nlinarith
  omega

/- Character-level shape of the formatted marks. -/

theorem fmtFixed2_data (x : ℚ) (h : 0 ≤ x) :
    (fmtFixed2 x).data =
      renderNat ((roundHalfEven (100 * x)).toNat / 100) ++
        '.' :: pad2 ((roundHalfEven (100 * x)).toNat % 100) := by
  unfold fmtFixed2
  have h0 : ¬(roundHalfEven (100 * x) < 0) :=
    not_lt.mpr (roundHalfEven_nonneg _ (by positivity))
  rw [if_neg h0]
  have habs : (roundHalfEven (100 * x)).natAbs = (roundHalfEven (100 * x)).toNat := by
    omega
  simp [String.data_append, habs]

theorem mem_fmtFixed2_digit_or_dot (x : ℚ) (h : 0 ≤ x) :
    ∀ c ∈ (fmtFixed2 x).data, c.isDigit = true ∨ c = '.' := by
  intro c hc
  rw [fmtFixed2_data x h] at hc
  rcases List.mem_append.mp hc with h1 | h1
  · exact Or.inl (renderNat_isDigit _ c h1)
  · rcases List.mem_cons.mp h1 with h2 | h2
    · exact Or.inr h2
    · exact Or.inl (pad2_isDigit _ (by omega) c h2)

theorem parseMark_fmtFixed2 (x : ℚ) (h : 0 ≤ x) :
    parseMark (fmtFixed2 x) = rhe2 x := by
  have hcolon : ':' ∉ (fmtFixed2 x).data := by
    intro hm
    rcases mem_fmtFixed2_digit_or_dot x h ':' hm with h1 | h1 <;> simp at h1
  have hdotA : '.' ∉ renderNat ((roundHalfEven (100 * x)).toNat / 100) := by
    intro hm
    exact isDigit_ne_dot _ (renderNat_isDigit _ _ hm) rfl
  have hdotB : '.' ∉ pad2 ((roundHalfEven (100 * x)).toNat % 100) := by
    intro hm
    exact isDigit_ne_dot _ (pad2_isDigit _ (by omega) _ hm) rfl
  have hred : parseMark (fmtFixed2 x) = parseFixedChars ((fmtFixed2 x).data) := by
    unfold parseMark
    rw [splitOnChar_of_not_mem _ _ hcolon]
  have hfix : parseFixedChars ((fmtFixed2 x).data) =
      (parseNatChars (renderNat ((roundHalfEven (100 * x)).toNat / 100)) : ℚ) +
        (parseNatChars (pad2 ((roundHalfEven (100 * x)).toNat % 100)) : ℚ) /
          ((10 : ℚ) ^ (pad2 ((roundHalfEven (100 * x)).toNat % 100)).length) := by
    unfold parseFixedChars
    rw [fmtFixed2_data x h, splitOnChar_append '.' _ _ hdotA,
      splitOnChar_of_not_mem _ _ hdotB]
  rw [hred, hfix, parseNatChars_renderNat, pad2_parse _ (by omega)]
  have hnn : 0 ≤ roundHalfEven (100 * x) := roundHalfEven_nonneg _ (by positivity)
  have hcast : ((roundHalfEven (100 * x)).toNat : ℚ) = ((roundHalfEven (100 * x) : ℤ) : ℚ) := by
    exact_mod_cast congrArg (fun z : ℤ => (z : ℚ)) (Int.toNat_of_nonneg hnn)
  unfold rhe2
  rw [← hcast]
  have hl2 : ((pad2 ((roundHalfEven (100 * x)).toNat % 100)).length) = 2 := rfl
  rw [hl2, show ((10 : ℚ) ^ 2) = 100 from by norm_num,
    eq_div_iff (show (100 : ℚ) ≠ 0 from by norm_num)]
  have hdmQ : (((roundHalfEven (100 * x)).toNat / 100 : ℕ) : ℚ) * 100 +
      (((roundHalfEven (100 * x)).toNat % 100 : ℕ) : ℚ) =
      (((roundHalfEven (100 * x)).toNat : ℕ) : ℚ) := by
    exact_mod_cast (by omega :
      (roundHalfEven (100 * x)).toNat / 100 * 100 + (roundHalfEven (100 * x)).toNat % 100 =
        (roundHalfEven (100 * x)).toNat)
  have hb : ((((roundHalfEven (100 * x)).toNat % 100 : ℕ) : ℚ) / 100) * 100 =
      (((roundHalfEven (100 * x)).toNat % 100 : ℕ) : ℚ) := by
    field_simp
  linarith [hdmQ, hb]

theorem format_seed_time_data_ge60 (x mean : ℚ) (hm : 60 ≤ mean) (hx : 0 ≤ x) :
    (format_seed_time x mean).data =
      renderNat (⌊x / 60⌋).toNat ++ ':' ::
        (pad2 ((⌊pyMod x 60 * 10⌋).toNat / 10) ++ '.' ::
          [digitChar ((⌊pyMod x 60 * 10⌋).toNat % 10)]) := by
  unfold format_seed_time
  rw [if_neg (not_lt.mpr hm)]
  unfold renderInt
  have h0 : ¬(⌊x / 60⌋ < 0) := not_lt.mpr (Int.floor_nonneg.mpr (by positivity))
  rw [if_neg h0]
  simp [String.data_append]

theorem parseMark_format_seed_time_ge60 (x mean : ℚ) (hm : 60 ≤ mean) (hx : 0 ≤ x) :
    parseMark (format_seed_time x mean) = floorTenths x := by
  have htn : 0 ≤ ⌊pyMod x 60 * 10⌋ := tenths_floor_nonneg x
  have htl : (⌊pyMod x 60 * 10⌋).toNat < 600 := tenths_floor_lt x
  have hcolonA : ':' ∉ renderNat (⌊x / 60⌋).toNat := by
    intro hmem
    exact isDigit_ne_colon _ (renderNat_isDigit _ _ hmem) rfl
  have hcolonB : ':' ∉ pad2 ((⌊pyMod x 60 * 10⌋).toNat / 10) ++ '.' ::
      [digitChar ((⌊pyMod x 60 * 10⌋).toNat % 10)] := by
    intro hmem
    rcases List.mem_append.mp hmem with h1 | h1
    · exact isDigit_ne_colon _ (pad2_isDigit _ (by omega) _ h1) rfl
    · rcases List.mem_cons.mp h1 with h2 | h2
      · simp at h2
      · rcases List.mem_cons.mp h2 with h3 | h3
        · exact isDigit_ne_colon _ (digitChar_isDigit _ (by omega)) h3.symm
        · simp at h3
  have hdotA : '.' ∉ pad2 ((⌊pyMod x 60 * 10⌋).toNat / 10) := by
    intro hmem
    exact isDigit_ne_dot _ (pad2_isDigit _ (by omega) _ hmem) rfl
  have hdotB : '.' ∉ [digitChar ((⌊pyMod x 60 * 10⌋).toNat % 10)] := by
    intro hmem
    rcases List.mem_cons.mp hmem with h1 | h1
    · exact isDigit_ne_dot _ (digitChar_isDigit _ (by omega)) h1.symm
    · simp at h1
  have hred : parseMark (format_seed_time x mean) =
      60 * (parseNatChars (renderNat (⌊x / 60⌋).toNat) : ℚ) +
        parseFixedChars (pad2 ((⌊pyMod x 60 * 10⌋).toNat / 10) ++ '.' ::
          [digitChar ((⌊pyMod x 60 * 10⌋).toNat % 10)]) := by
    unfold parseMark
    rw [format_seed_time_data_ge60 x mean hm hx, splitOnChar_append ':' _ _ hcolonA,
      splitOnChar_of_not_mem _ _ hcolonB]
  have hfix : parseFixedChars (pad2 ((⌊pyMod x 60 * 10⌋).toNat / 10) ++ '.' ::
      [digitChar ((⌊pyMod x 60 * 10⌋).toNat % 10)]) =
      (parseNatChars (pad2 ((⌊pyMod x 60 * 10⌋).toNat / 10)) : ℚ) +
        (parseNatChars [digitChar ((⌊pyMod x 60 * 10⌋).toNat % 10)] : ℚ) /
          ((10 : ℚ) ^ ([digitChar ((⌊pyMod x 60 * 10⌋).toNat % 10)] : List Char).length) := by
    unfold parseFixedChars
    rw [splitOnChar_append '.' _ _ hdotA, splitOnChar_of_not_mem _ _ hdotB]
  rw [hred, hfix, parseNatChars_renderNat, pad2_parse _ (by omega),
    single_digit_parse _ (by omega)]
  simp only [List.length_singleton]
  have hF : ((⌊x / 60⌋).toNat : ℚ) = ((⌊x / 60⌋ : ℤ) : ℚ) := by
    exact_mod_cast congrArg (fun z : ℤ => (z : ℚ))
      (Int.toNat_of_nonneg (Int.floor_nonneg.mpr (by positivity)))
  have hT : ((⌊pyMod x 60 * 10⌋).toNat : ℚ) = ((⌊pyMod x 60 * 10⌋ : ℤ) : ℚ) := by
    exact_mod_cast congrArg (fun z : ℤ => (z : ℚ)) (Int.toNat_of_nonneg htn)
  have hsplit : (⌊10 * x⌋ : ℤ) = 600 * ⌊x / 60⌋ + ⌊pyMod x 60 * 10⌋ := by
    have h10 : (10 : ℚ) * x = ((600 * ⌊x / 60⌋ : ℤ) : ℚ) + pyMod x 60 * 10 := by
      unfold pyMod
      push_cast
      ring
    rw [h10, Int.floor_int_add]
  unfold floorTenths
  rw [hsplit, show ((10 : ℚ) ^ 1) = 10 from by norm_num,
    eq_div_iff (show (10 : ℚ) ≠ 0 from by norm_num)]
  have hdmQ : (((⌊pyMod x 60 * 10⌋).toNat / 10 : ℕ) : ℚ) * 10 +
      (((⌊pyMod x 60 * 10⌋).toNat % 10 : ℕ) : ℚ) =
      (((⌊pyMod x 60 * 10⌋).toNat : ℕ) : ℚ) := by
    exact_mod_cast (by omega :
      (⌊pyMod x 60 * 10⌋).toNat / 10 * 10 + (⌊pyMod x 60 * 10⌋).toNat % 10 =
        (⌊pyMod x 60 * 10⌋).toNat)
  have hb : ((((⌊pyMod x 60 * 10⌋).toNat % 10 : ℕ) : ℚ) / 10) * 10 =
      (((⌊pyMod x 60 * 10⌋).toNat % 10 : ℕ) : ℚ) := by
    field_simp
  have hcast600 : ((600 * ⌊x / 60⌋ + ⌊pyMod x 60 * 10⌋ : ℤ) : ℚ) =
      600 * ((⌊x / 60⌋ : ℤ) : ℚ) + ((⌊pyMod x 60 * 10⌋ : ℤ) : ℚ) := by
    push_cast
    ring
  rw [hcast600]
  linarith [hdmQ, hb, hF, hT]

theorem parseMark_runFmt (is_run : Bool) (avg x : ℚ) (hx : 0 ≤ x) :
    parseMark (runFmt is_run avg x) = quant is_run avg x := by
  cases is_run with
  | false => exact parseMark_fmtFixed2 x hx
  | true =>
    show parseMark (format_seed_time x avg) = if 60 ≤ avg then floorTenths x else rhe2 x
    by_cases h60 : 60 ≤ avg
    · rw [if_pos h60]
      exact parseMark_format_seed_time_ge60 x avg h60 hx
    · rw [if_neg h60]
      unfold format_seed_time
      rw [if_pos (not_le.mp h60)]
      exact parseMark_fmtFixed2 x hx

/- Shuffle model: applying a permutation index list rearranges the list. -/

theorem filterMap_eq_map_of_forall {α : Type} {β : Type} (f : α → Option β) (g : α → β)
    (xs : List α) (h : ∀ a ∈ xs, f a = some (g a)) : xs.filterMap f = xs.map g := by
  induction xs with
  | nil => rfl
  | cons a xs ih =>
    rw [List.filterMap_cons, h a (List.mem_cons_self a xs), List.map_cons,
      ih (fun b hb => h b (List.mem_cons_of_mem a hb))]

theorem range_map_getD (l : List Athlete) :
    (List.range l.length).map (fun i => l.getD i dAth) = l := by
  apply List.ext_getElem
  · simp
  · intro n h1 h2
    simp only [List.getElem_map, List.getElem_range]
    rw [List.getD_eq_getElem l dAth (by simpa using h2)]

theorem applyPerm_of_valid (p : List Nat) (l : List Athlete)
    (h : p.Perm (List.range l.length)) : (applyPerm p l).Perm l := by
  unfold applyPerm
  have hall : ∀ a ∈ List.range l.length,
      (fun i => l[i]?) a = some ((fun i => l.getD i dAth) a) := by
    intro a ha
    have hlt : a < l.length := List.mem_range.mp ha
    show l[a]? = some (l.getD a dAth)
    rw [List.getElem?_eq_getElem hlt, List.getD_eq_getElem l dAth hlt]
  have h1 : (List.range l.length).filterMap (fun i => l[i]?) = l := by
    rw [filterMap_eq_map_of_forall _ _ _ hall, range_map_getD]
  have h2 := List.Perm.filterMap (fun i => l[i]?) h
  rw [h1] at h2
  exact h2

theorem applyPerm_length (p : List Nat) (l : List Athlete)
    (h : p.Perm (List.range l.length)) : (applyPerm p l).length = l.length :=
  (applyPerm_of_valid p l h).length_eq

/- Sorting facts. -/

theorem sortAsc_sorted (l : List ℚ) : (sortAsc l).Pairwise (fun a b => a ≤ b) := by
  have := List.sorted_insertionSort (fun a b : ℚ => a ≤ b) l
  exact this

theorem sortAsc_perm (l : List ℚ) : (sortAsc l).Perm l :=
  List.perm_insertionSort _ l

theorem sortDesc_sorted (l : List ℚ) : (sortDesc l).Pairwise (fun a b => b ≤ a) := by
  have : IsTotal ℚ (fun a b : ℚ => b ≤ a) := ⟨fun a b => le_total b a⟩
  have : IsTrans ℚ (fun a b : ℚ => b ≤ a) := ⟨fun a b c h1 h2 => le_trans h2 h1⟩
  exact List.sorted_insertionSort (fun a b : ℚ => b ≤ a) l

theorem sortDesc_perm (l : List ℚ) : (sortDesc l).Perm l :=
  List.perm_insertionSort _ l

theorem gaussTimes_nonneg (avg std_dev : ℚ) (g : Nat → ℚ) (n : Nat) :
    ∀ x ∈ gaussTimes avg std_dev g n, 0 ≤ x := by
  intro x hx
  unfold gaussTimes at hx
  rcases List.mem_map.mp hx with ⟨k, _, rfl⟩
  exact le_max_left 0 _

theorem gaussTimes_length (avg std_dev : ℚ) (g : Nat → ℚ) (n : Nat) :
    (gaussTimes avg std_dev g n).length = n := by
  unfold gaussTimes
  simp

/- Chunking facts. -/

theorem chunksF_nil {α : Type} (fuel m : Nat) : chunksF fuel m ([] : List α) = [] := by
  cases fuel <;> rfl

theorem chunksF_congr {α : Type} (m : Nat) (hm : 0 < m) :
    ∀ fuel1 fuel2 (l : List α), l.length ≤ fuel1 → l.length ≤ fuel2 →
      chunksF fuel1 m l = chunksF fuel2 m l := by
  intro fuel1
  induction fuel1 with
  | zero =>
    intro fuel2 l h1 h2
    have : l = [] := List.length_eq_zero.mp (by omega)
    subst this
    rw [chunksF_nil, chunksF_nil]
  | succ fuel ih =>
    intro fuel2 l h1 h2
    cases l with
    | nil => rw [chunksF_nil, chunksF_nil]
    | cons x xs =>
      cases fuel2 with
      | zero => simp at h2
      | succ fuel2 =>
        show (x :: xs).take m :: chunksF fuel m ((x :: xs).drop m) =
          (x :: xs).take m :: chunksF fuel2 m ((x :: xs).drop m)
        rw [ih fuel2 ((x :: xs).drop m)
          (by simp only [List.length_drop, List.length_cons]
              simp only [List.length_cons] at h1
              omega)
          (by simp only [List.length_drop, List.length_cons]
              simp only [List.length_cons] at h2
              omega)]

theorem chunks_nil {α : Type} (m : Nat) : chunks m ([] : List α) = [] := rfl

theorem chunks_cons {α : Type} (m : Nat) (hm : 0 < m) (l : List α) (hl : l ≠ []) :
    chunks m l = l.take m :: chunks m (l.drop m) := by
  unfold chunks
  cases l with
  | nil => exact absurd rfl hl
  | cons x xs =>
    show (x :: xs).take m :: chunksF (x :: xs).length.pred m ((x :: xs).drop m) = _
    rw [chunksF_congr m hm (x :: xs).length.pred ((x :: xs).drop m).length
      ((x :: xs).drop m) (by simp; omega) (le_refl _)]

theorem chunks_eq_nil_iff {α : Type} (m : Nat) (hm : 0 < m) (l : List α) :
    chunks m l = [] ↔ l = [] := by
  constructor
  · intro h
    by_contra hne
    rw [chunks_cons m hm l hne] at h
    simp at h
  · intro h
    subst h
    rfl

theorem chunks_flatten {α : Type} (m : Nat) (hm : 0 < m) :
    ∀ (n : Nat) (l : List α), l.length ≤ n → (chunks m l).flatten = l := by
  intro n
  induction n with
  | zero =>
    intro l h
    have : l = [] := List.length_eq_zero.mp (by omega)
    subst this
    rfl
  | succ n ih =>
    intro l h
    by_cases hl : l = []
    · subst hl; rfl
    · rw [chunks_cons m hm l hl]
      simp only [List.flatten_cons]
      rw [ih (l.drop m) (by simp; have : 0 < l.length := List.length_pos.mpr hl; omega)]
      exact List.take_append_drop m l

theorem chunks_map {α : Type} {β : Type} (f : α → β) (m : Nat) (hm : 0 < m) :
    ∀ (n : Nat) (l : List α), l.length ≤ n →
      (chunks m l).map (List.map f) = chunks m (l.map f) := by
  intro n
  induction n with
  | zero =>
    intro l h
    have : l = [] := List.length_eq_zero.mp (by omega)
    subst this
    rfl
  | succ n ih =>
    intro l h
    by_cases hl : l = []
    · subst hl; rfl
    · rw [chunks_cons m hm l hl, chunks_cons m hm (l.map f) (by simpa using hl)]
      simp only [List.map_cons]
      rw [ih (l.drop m) (by simp; have : 0 < l.length := List.length_pos.mpr hl; omega),
        List.map_take, List.map_drop]

theorem chunkSizesF_nil (fuel m : Nat) : chunkSizesF fuel m 0 = [] := by
  cases fuel <;> simp [chunkSizesF]

theorem chunkSizesF_congr (m : Nat) (hm : 0 < m) :
    ∀ fuel1 fuel2 n, n ≤ fuel1 → n ≤ fuel2 →
      chunkSizesF fuel1 m n = chunkSizesF fuel2 m n := by
  intro fuel1
  induction fuel1 with
  | zero =>
    intro fuel2 n h1 h2
    have : n = 0 := by omega
    subst this
    rw [chunkSizesF_nil, chunkSizesF_nil]
  | succ fuel ih =>
    intro fuel2 n h1 h2
    by_cases hn : n = 0
    · subst hn; rw [chunkSizesF_nil, chunkSizesF_nil]
    · cases fuel2 with
      | zero => omega
      | succ fuel2 =>
        show (if n = 0 then [] else min m n :: chunkSizesF fuel m (n - m)) =
          (if n = 0 then [] else min m n :: chunkSizesF fuel2 m (n - m))
        rw [if_neg hn, if_neg hn, ih fuel2 (n - m) (by omega) (by omega)]

theorem chunkSizes_zero (m : Nat) : chunkSizes m 0 = [] := rfl

theorem chunkSizes_pos (m : Nat) (hm : 0 < m) (n : Nat) (hn : 0 < n) :
    chunkSizes m n = min m n :: chunkSizes m (n - m) := by
  unfold chunkSizes
  cases n with
  | zero => omega
  | succ n0 =>
    show (if n0 + 1 = 0 then [] else min m (n0 + 1) :: chunkSizesF n0 m (n0 + 1 - m)) = _
    rw [if_neg (by omega)]
    rw [chunkSizesF_congr m hm n0 (n0 + 1 - m) (n0 + 1 - m) (by omega) (le_refl _)]

theorem chunks_map_length {α : Type} (m : Nat) (hm : 0 < m) :
    ∀ (n : Nat) (l : List α), l.length ≤ n →
      (chunks m l).map List.length = chunkSizes m l.length := by
  intro n
  induction n with
  | zero =>
    intro l h
    have : l = [] := List.length_eq_zero.mp (by omega)
    subst this
    rfl
  | succ n ih =>
    intro l h
    by_cases hl : l = []
    · subst hl; rfl
    · have hpos : 0 < l.length := List.length_pos.mpr hl
      rw [chunks_cons m hm l hl, chunkSizes_pos m hm l.length hpos]
      simp only [List.map_cons, List.length_take]
      rw [ih (l.drop m) (by simp; omega), List.length_drop]

theorem ceil_div_succ (m n : Nat) (hm : 0 < m) (hn : 0 < n) :
    (n + m - 1) / m = (n - m + m - 1) / m + 1 := by
  rcases le_or_lt m n with h | h
  · have h1 : n + m - 1 = (n - 1) + m := by omega
    have h2 : n - m + m - 1 = n - 1 := by omega
    rw [h1, h2, Nat.add_div_right _ hm]
  · have h1 : n - m = 0 := by omega
    rw [h1]
    have h2 : (0 + m - 1) / m = 0 := Nat.div_eq_of_lt (by omega)
    rw [h2]
    have h3 : 1 ≤ (n + m - 1) / m := (Nat.one_le_div_iff hm).mpr (by omega)
    have h4 : (n + m - 1) / m < 2 := (Nat.div_lt_iff_lt_mul hm).mpr (by omega)
    omega

theorem chunkSizes_length (m : Nat) (hm : 0 < m) :
    ∀ (fuel n : Nat), n ≤ fuel → (chunkSizes m n).length = (n + m - 1) / m := by
  intro fuel
  induction fuel with
  | zero =>
    intro n h
    have : n = 0 := by omega
    subst this
    simp only [chunkSizes_zero, List.length_nil]
    exact (Nat.div_eq_of_lt (by omega)).symm
  | succ fuel ih =>
    intro n h
    by_cases hn : n = 0
    · subst hn
      simp only [chunkSizes_zero, List.length_nil]
      exact (Nat.div_eq_of_lt (by omega)).symm
    · rw [chunkSizes_pos m hm n (by omega)]
      simp only [List.length_cons]
      rw [ih (n - m) (by omega), ceil_div_succ m n hm (by omega)]

theorem chunkSizes_ne_nil (m : Nat) (hm : 0 < m) (n : Nat) :
    chunkSizes m n ≠ [] ↔ 0 < n := by
  constructor
  · intro h
    by_contra hn
    have : n = 0 := by omega
    subst this
    exact h (chunkSizes_zero m)
  · intro h
    rw [chunkSizes_pos m hm n h]
    simp

theorem chunkSizes_getD (m : Nat) (hm : 0 < m) :
    ∀ (fuel n i : Nat), n ≤ fuel → i + 1 < (chunkSizes m n).length →
      (chunkSizes m n).getD i 0 = m := by
  intro fuel
  induction fuel with
  | zero =>
    intro n i hn h
    have : n = 0 := by omega
    subst this
    simp [chunkSizes_zero] at h
  | succ fuel ih =>
    intro n i hn h
    by_cases h0 : n = 0
    · subst h0
      simp [chunkSizes_zero] at h
    · have hn0 : 0 < n := by omega
      have htail : 0 < (chunkSizes m (n - m)).length := by
        rw [chunkSizes_pos m hm n hn0] at h
        simp only [List.length_cons] at h
        omega
      have hmn : m ≤ n := by
        by_contra hlt
        have hz : n - m = 0 := by omega
        rw [hz] at htail
        simp [chunkSizes_zero] at htail
      have hlist : chunkSizes m n = m :: chunkSizes m (n - m) := by
        rw [chunkSizes_pos m hm n hn0]
        congr 1
        omega
      rw [hlist] at h ⊢
      cases i with
      | zero => rfl
      | succ i =>
        simp only [List.getD_cons_succ]
        simp only [List.length_cons] at h
        exact ih (n - m) i (by omega) (by omega)

theorem chunkSizes_getLast? (m : Nat) (hm : 0 < m) :
    ∀ (fuel n : Nat), n ≤ fuel → 0 < n →
      (chunkSizes m n).getLast? = some (if n % m = 0 then m else n % m) := by
  intro fuel
  induction fuel with
  | zero =>
    intro n hn h0
    omega
  | succ fuel ih =>
    intro n hn h0
    rcases le_or_lt n m with hle | hlt
    · have hdrop : n - m = 0 := by omega
      have hlist : chunkSizes m n = [n] := by
        rw [chunkSizes_pos m hm n h0, hdrop, chunkSizes_zero]
        congr 1
        omega
      rw [hlist]
      rcases Nat.lt_or_ge n m with hlt2 | hge
      · rw [if_neg (by rw [Nat.mod_eq_of_lt hlt2]; omega), Nat.mod_eq_of_lt hlt2]
        rfl
      · have hnm : n = m := by omega
        subst hnm
        rw [if_pos (Nat.mod_self n)]
        rfl
    · have htailne : chunkSizes m (n - m) ≠ [] :=
        (chunkSizes_ne_nil m hm (n - m)).mpr (by omega)
      have hlist : chunkSizes m n = m :: chunkSizes m (n - m) := by
        rw [chunkSizes_pos m hm n h0]
        congr 1
        omega
      rcases List.exists_cons_of_ne_nil htailne with ⟨t, ts, hts⟩
      rw [hlist, hts, List.getLast?_cons_cons, ← hts,
        ih (n - m) (by omega) (by omega)]
      have hmod : (n - m) % m = n % m := by
        conv_rhs => rw [show n = (n - m) + m by omega]
        rw [Nat.add_mod_right]
      rw [hmod]

/- Characterization of the make_heats loops: the heats are the chunks of the
   shuffled entry list zipped with the sorted formatted marks. -/

theorem intRangeN_succ (a : Int) (t : Nat) :
    intRangeN a (t + 1) = a :: intRangeN (a + 1) t := by
  unfold intRangeN
  rw [List.range_succ_eq_map]
  simp only [List.map_cons, Nat.cast_zero, add_zero, List.map_map]
  congr 1
  apply List.map_congr_left
  intro k _
  simp only [Function.comp_apply, Nat.succ_eq_add_one]
  push_cast
  ring

theorem zip_take_eq {α β : Type} :
    ∀ (n : Nat) (l : List α) (s : List β),
      (l.zip s).take n = (l.take n).zip (s.take n) := by
  intro n
  induction n with
  | zero => intro l s; simp
  | succ n ih =>
    intro l s
    cases l with
    | nil => simp
    | cons x xs =>
      cases s with
      | nil => simp
      | cons y ys => simp [List.zip_cons_cons, ih xs ys]

theorem zip_drop_eq {α β : Type} :
    ∀ (n : Nat) (l : List α) (s : List β),
      (l.zip s).drop n = (l.drop n).zip (s.drop n) := by
  intro n
  induction n with
  | zero => intro l s; simp
  | succ n ih =>
    intro l s
    cases l with
    | nil => simp
    | cons x xs =>
      cases s with
      | nil => simp
      | cons y ys => simp [List.zip_cons_cons, ih xs ys]

theorem inner_foldl (es : List Athlete) (fmt : ℚ → String) :
    ∀ (t : Nat) (a : Int) (h0 : List (Athlete × String)) (ts : List ℚ),
      t ≤ ts.length →
      (intRangeN a t).foldl (heat_step es fmt) (h0, ts) =
        (h0 ++ ((intRangeN a t).map (fun j => es.getD j.toNat dAth)).zip
          ((ts.take t).map fmt), ts.drop t) := by
  intro t
  induction t with
  | zero =>
    intro a h0 ts h
    simp [intRangeN]
  | succ t ih =>
    intro a h0 ts h
    rcases ts with _ | ⟨v, ts⟩
    · simp at h
    · rw [intRangeN_succ, List.foldl_cons]
      have hstep : heat_step es fmt (h0, v :: ts) a =
          (h0 ++ [(es.getD a.toNat dAth, fmt v)], ts) := by
        simp [heat_step]
      rw [hstep, ih (a + 1) _ ts (by simp only [List.length_cons] at h; omega)]
      simp only [List.map_cons, List.take_succ_cons, List.drop_succ_cons,
        List.zip_cons_cons, List.append_assoc, List.singleton_append]

theorem intRangeN_map_getD (es : List Athlete) :
    ∀ (t a : Nat), a + t ≤ es.length →
      (intRangeN (a : Int) t).map (fun j => es.getD j.toNat dAth) =
        (es.drop a).take t := by
  intro t
  induction t with
  | zero =>
    intro a h
    simp [intRangeN]
  | succ t ih =>
    intro a h
    rw [intRangeN_succ, List.map_cons]
    have hacast : ((a : Int) + 1) = ((a + 1 : Nat) : Int) := by push_cast; ring
    rw [hacast, ih (a + 1) (by omega)]
    have hget : es.getD ((a : Int)).toNat dAth = es.getD a dAth := by
      rw [Int.toNat_natCast]
    rw [hget, List.drop_eq_getElem_cons (by omega : a < es.length), List.take_succ_cons]
    congr 1
    exact List.getD_eq_getElem es dAth (by omega)

theorem pyRange_pos (n : Nat) (m : Nat) (hm : 0 < m) :
    pyRange 0 (n : Int) (m : Int) =
      some ((List.range ((n + m - 1) / m)).map (fun k => ((m * k : Nat) : Int))) := by
  unfold pyRange pyRangeLen
  rw [if_neg (by omega), if_pos (by exact_mod_cast hm)]
  congr 1
  have hnum : (n : Int) - 0 + (m : Int) - 1 = ((n + m - 1 : Nat) : Int) := by
    omega
  have hL : (((n : Int) - 0 + (m : Int) - 1) / (m : Int)).toNat = (n + m - 1) / m := by
    rw [hnum]
    norm_cast
  rw [hL]
  apply List.map_congr_left
  intro k _
  push_cast
  ring

theorem take_min_eq {α : Type} (m : Nat) (Z : List α) :
    Z.take (min m Z.length) = Z.take m := by
  rcases le_or_lt m Z.length with h | h
  · rw [min_eq_left h]
  · rw [min_eq_right (by omega), List.take_length, List.take_of_length_le (by omega)]

theorem drop_min_eq {α : Type} (m : Nat) (Z : List α) :
    Z.drop (min m Z.length) = Z.drop m := by
  rcases le_or_lt m Z.length with h | h
  · rw [min_eq_left h]
  · rw [min_eq_right (by omega), List.drop_length, List.drop_eq_nil_of_le (by omega)]

theorem outer_foldl (es : List Athlete) (m : Nat) (hm : 0 < m) (fmt : ℚ → String) :
    ∀ (L c : Nat) (hs0 : List (List (Athlete × String))) (ts : List ℚ),
      (m * c + ts.length = es.length ∨ ts.length = 0) →
      L = (ts.length + m - 1) / m →
      ((List.range' c L).map (fun k => ((m * k : Nat) : Int))).foldl
        (heats_step es (m : Int) fmt) (hs0, ts) =
        (hs0 ++ chunks m ((es.drop (m * c)).zip (ts.map fmt)), ([] : List ℚ)) := by
  intro L
  induction L with
  | zero =>
    intro c hs0 ts halign hL
    have hlen : ts.length = 0 := by
      by_contra hne
      have h1 : 1 ≤ (ts.length + m - 1) / m := (Nat.one_le_div_iff hm).mpr (by omega)
      omega
    have hts : ts = [] := List.length_eq_zero.mp hlen
    subst hts
    simp [chunks_nil]
  | succ L ih =>
    intro c hs0 ts halign hL
    have hlen : 0 < ts.length := by
      by_contra hne
      have h0 : ts.length = 0 := by omega
      rw [h0] at hL
      rw [Nat.div_eq_of_lt (by omega)] at hL
      omega
    have he : m * c + ts.length = es.length := by
      rcases halign with h | h
      · exact h
      · omega
    rw [List.range'_succ, List.map_cons, List.foldl_cons]
    have hcnt : (min ((((m * c : Nat) : Int)) + (m : Int)) ((es.length : Int)) -
        ((m * c : Nat) : Int)).toNat = min m ts.length := by
      omega
    have hstep : heats_step es (m : Int) fmt (hs0, ts) ((m * c : Nat) : Int) =
        (hs0 ++ [((es.drop (m * c)).zip (ts.map fmt)).take m], ts.drop m) := by
      unfold heats_step
      simp only [hcnt]
      rw [inner_foldl es fmt (min m ts.length) _ _ ts (by omega)]
      rw [intRangeN_map_getD es (min m ts.length) (m * c) (by omega)]
      have hZlen : ((es.drop (m * c)).zip (ts.map fmt)).length = ts.length := by
        simp only [List.length_zip, List.length_drop, List.length_map]
        omega
      have hzip : ((es.drop (m * c)).take (min m ts.length)).zip
          ((ts.take (min m ts.length)).map fmt) =
          ((es.drop (m * c)).zip (ts.map fmt)).take m := by
        rw [← take_min_eq m ((es.drop (m * c)).zip (ts.map fmt)), hZlen, zip_take_eq,
          List.map_take]
      have hdropts : ts.drop (min m ts.length) = ts.drop m := drop_min_eq m ts
      rw [hzip]
      simp only [List.nil_append]
      rw [hdropts]
    rw [hstep]
    have hzne : (es.drop (m * c)).zip (ts.map fmt) ≠ [] := by
      intro hnil
      have := congrArg List.length hnil
      simp only [List.length_zip, List.length_drop, List.length_map,
        List.length_nil] at this
      omega
    have hdropZ : ((es.drop (m * c)).zip (ts.map fmt)).drop m =
        (es.drop (m * (c + 1))).zip ((ts.drop m).map fmt) := by
      rw [zip_drop_eq, List.drop_drop, List.map_drop,
        show m * c + m = m * (c + 1) from by ring]
    rw [ih (c + 1) (hs0 ++ [((es.drop (m * c)).zip (ts.map fmt)).take m]) (ts.drop m)
      (by
        simp only [List.length_drop]
        have hmc1 : m * (c + 1) = m * c + m := by ring
        rcases le_or_lt m ts.length with hcase | hcase
        · left; omega
        · right; omega)
      (by
        simp only [List.length_drop]
        have := ceil_div_succ m ts.length hm hlen
        omega)]
    rw [← hdropZ, List.append_assoc, List.singleton_append,
      ← chunks_cons m hm _ hzne]

theorem make_heats_eq (entries : List Athlete) (mhs : Int) (avg std_dev : ℚ)
    (is_run : Bool) (rng : Rng) (hm : 0 < mhs) :
    make_heats entries mhs avg std_dev is_run rng =
      Except.ok
        (chunks mhs.toNat
          ((applyPerm rng.perm entries).zip
            (((if is_run then
                sortAsc (gaussTimes avg std_dev rng.gauss (applyPerm rng.perm entries).length)
              else
                sortDesc (gaussTimes avg std_dev rng.gauss
                  (applyPerm rng.perm entries).length))).map (runFmt is_run avg))),
          applyPerm rng.perm entries) := by
  have hmn : mhs = ((mhs.toNat : Nat) : Int) := by omega
  have hts : (if is_run then
      sortAsc (gaussTimes avg std_dev rng.gauss (applyPerm rng.perm entries).length)
    else
      sortDesc (gaussTimes avg std_dev rng.gauss
        (applyPerm rng.perm entries).length)).length =
      (applyPerm rng.perm entries).length := by
    cases is_run with
    | true =>
      rw [if_pos rfl, (sortAsc_perm _).length_eq, gaussTimes_length]
    | false =>
      rw [if_neg Bool.false_ne_true, (sortDesc_perm _).length_eq, gaussTimes_length]
  simp only [make_heats]
  conv_lhs => rw [hmn]
  rw [pyRange_pos _ _ (by omega)]
  show Except.ok _ = _
  congr 1
  rw [List.range_eq_range']
  rw [outer_foldl (applyPerm rng.perm entries) mhs.toNat (by omega) (runFmt is_run avg)
    _ 0 [] _ (Or.inl (by rw [hts]; omega)) (by rw [hts])]
  simp

/- Schedule facts. -/

theorem proc_events_ok (rngs : Nat → Rng) (gap : Int) :
    ∀ (events : List EventDef) (t : Int) (k : Nat) (evs : List Event),
      proc_events rngs gap events t k = Except.ok evs →
      evs.map Event.name = events.map EventDef.name ∧
      evs.map Event.time =
        (scheduleTimes (events.map EventDef.duration) t gap).map strftime12 := by
  intro events
  induction events with
  | nil =>
    intro t k evs h
    unfold proc_events at h
    injection h with h1
    subst h1
    exact ⟨rfl, rfl⟩
  | cons e rest ih =>
    intro t k evs h
    unfold proc_events at h
    rcases hm : make_heats e.entries e.max_heat_size e.average e.std_dev
        e.kind.is_run (rngs k) with s | pr
    · rw [hm] at h
      exact absurd h (by simp)
    · rw [hm] at h
      rcases hr : proc_events rngs gap rest (t + e.duration + gap) (k + 1) with s | evs2
      · rw [hr] at h
        exact absurd h (by simp)
      · rw [hr] at h
        injection h with h1
        subst h1
        rcases ih (t + e.duration + gap) (k + 1) evs2 hr with ⟨hn, htimes⟩
        constructor
        · simp only [List.map_cons, hn]
        · simp only [List.map_cons, scheduleTimes, htimes]

theorem scheduleTimes_cons (d : Int) (ds : List Int) (t gap : Int) :
    scheduleTimes (d :: ds) t gap = t :: scheduleTimes ds (t + d + gap) gap := rfl

theorem scheduleTimes_chain (durations : List Int) :
    ∀ (t gap : Int), (∀ d ∈ durations, 0 < d + gap) →
      (scheduleTimes durations t gap).Chain' (fun a b => a < b) := by
  induction durations with
  | nil => intro t gap _; exact List.chain'_nil
  | cons d ds ih =>
    intro t gap h
    rw [scheduleTimes_cons]
    cases ds with
    | nil => exact List.chain'_singleton t
    | cons d2 ds2 =>
      rw [scheduleTimes_cons, List.chain'_cons]
      constructor
      · have := h d (List.mem_cons_self d _)
        omega
      · rw [← scheduleTimes_cons]
        exact ih (t + d + gap) gap (fun x hx => h x (List.mem_cons_of_mem d hx))

/- Parser facts. -/

theorem process_pairing_fail (name_map : String → Option Athlete)
    (event_map : String → Option EventDef) (athlete_name : String)
    (m : List (String × List Athlete)) (d : List String) (label : String)
    (h : event_map label = none ∨ name_map athlete_name = none) :
    (process_pairing name_map event_map athlete_name (m, d) label).1 = m ∧
    (process_pairing name_map event_map athlete_name (m, d) label).2.length =
      d.length + 1 := by
  unfold process_pairing
  rcases hev : event_map label with _ | ev
  · simp
  · rcases h with h | h
    · rw [hev] at h
      exact absurd h (by simp)
    · rw [h]
      simp

theorem process_row_map_unchanged (name_map : String → Option Athlete)
    (event_map : String → Option EventDef) (aname : String)
    (hn : name_map aname = none) :
    ∀ (labels : List String) (acc : List (String × List Athlete) × List String),
      (labels.foldl (process_pairing name_map event_map aname) acc).1 = acc.1 := by
  intro labels
  induction labels with
  | nil => intro acc; rfl
  | cons l ls ih =>
    intro acc
    rw [List.foldl_cons, ih]
    unfold process_pairing
    rcases hev : event_map l with _ | ev
    · rfl
    · rw [hn]

theorem rows_fold_map_unchanged (name_map : String → Option Athlete)
    (event_map : String → Option EventDef) :
    ∀ (rows : List Row) (acc : List (String × List Athlete) × List String),
      (∀ row ∈ rows, name_map (normalizeStr row.name) = none) →
      (rows.foldl (process_row name_map event_map) acc).1 = acc.1 := by
  intro rows
  induction rows with
  | nil => intro acc _; rfl
  | cons row rows ih
 =>
    intro acc h
    rw [List.foldl_cons, ih _ (fun r hr => h r (List.mem_cons_of_mem row hr))]
    unfold process_row
    exact process_row_map_unchanged name_map event_map _
      (h row (List.mem_cons_self row rows)) _ _

theorem finalize_fold_empty :
    ∀ (events : List EventDef) (acc : List EventDef × List String),
      (events.foldl (finalize_event []) acc).1 = acc.1 ++ events := by
  intro events
  induction events with
  | nil => intro acc; simp
  | cons e rest ih =>
    intro acc
    rw [List.foldl_cons, ih]
    unfold finalize_event
    show (acc.1 ++ [e]) ++ rest = acc.1 ++ e :: rest
    simp

theorem parse_entries_unresolved (rows : List Row) (events : List EventDef)
    (name_map : String → Option Athlete) (event_map : String → Option EventDef)
    (h : ∀ row ∈ rows, name_map (normalizeStr row.name) = none) :
    (parse_entries rows events name_map event_map).1 = events := by
  simp only [parse_entries]
  have h1 : (rows.foldl (process_row name_map event_map) ([], [])).1 = [] :=
    rows_fold_map_unchanged name_map event_map rows ([], []) h
  rw [h1, finalize_fold_empty events _]
  simp

/- Derived facts about make_heats used by the claims. -/

theorem make_heats_ok_shape (entries : List Athlete) (mhs : Int) (avg std_dev : ℚ)
    (is_run : Bool) (rng : Rng) (hm : 0 < mhs)
    (hs : List (List (Athlete × String))) (es : List Athlete)
    (h : make_heats entries mhs avg std_dev is_run rng = Except.ok (hs, es)) :
    es = applyPerm rng.perm entries ∧
    hs = chunks mhs.toNat (es.zip
      (((if is_run then sortAsc (gaussTimes avg std_dev rng.gauss es.length)
        else sortDesc (gaussTimes avg std_dev rng.gauss es.length))).map
          (runFmt is_run avg))) := by
  rw [make_heats_eq entries mhs avg std_dev is_run rng hm] at h
  injection h with h1
  have hes : es = applyPerm rng.perm entries := (congrArg Prod.snd h1).symm
  have hhs : hs = chunks mhs.toNat
      ((applyPerm rng.perm entries).zip
        (((if is_run then
            sortAsc (gaussTimes avg std_dev rng.gauss (applyPerm rng.perm entries).length)
          else
            sortDesc (gaussTimes avg std_dev rng.gauss
              (applyPerm rng.perm entries).length))).map (runFmt is_run avg))) :=
    (congrArg Prod.fst h1).symm
  rw [hes]
  exact ⟨rfl, hhs⟩

theorem make_heats_marks (entries : List Athlete) (mhs : Int) (avg std_dev : ℚ)
    (is_run : Bool) (rng : Rng) (hm : 0 < mhs)
    (hs : List (List (Athlete × String))) (es : List Athlete)
    (h : make_heats entries mhs avg std_dev is_run rng = Except.ok (hs, es)) :
    ∃ ts : List ℚ,
      (∀ x ∈ ts, 0 ≤ x) ∧
      ts.length = es.length ∧
      ts.Pairwise (monoRel is_run) ∧
      hs = chunks mhs.toNat (es.zip (ts.map (runFmt is_run avg))) := by
  rcases make_heats_ok_shape entries mhs avg std_dev is_run rng hm hs es h with ⟨hes, hhs⟩
  refine ⟨(if is_run then sortAsc (gaussTimes avg std_dev rng.gauss es.length)
    else sortDesc (gaussTimes avg std_dev rng.gauss es.length)), ?_, ?_, ?_, hhs⟩
  · intro x hx
    cases is_run with
    | true =>
      rw [if_pos rfl] at hx
      exact gaussTimes_nonneg avg std_dev rng.gauss es.length x
        ((sortAsc_perm _).mem_iff.mp hx)
    | false =>
      rw [if_neg Bool.false_ne_true] at hx
      exact gaussTimes_nonneg avg std_dev rng.gauss es.length x
        ((sortDesc_perm _).mem_iff.mp hx)
  · cases is_run with
    | true => rw [if_pos rfl, (sortAsc_perm _).length_eq, gaussTimes_length]
    | false => rw [if_neg Bool.false_ne_true, (sortDesc_perm _).length_eq, gaussTimes_length]
  · cases is_run with
    | true =>
      rw [if_pos rfl]
      exact sortAsc_sorted _
    | false =>
      rw [if_neg Bool.false_ne_true]
      exact sortDesc_sorted _

theorem parse_marks_pairwise (is_run : Bool) (avg : ℚ) (ts : List ℚ)
    (h0 : ∀ x ∈ ts, 0 ≤ x) (hp : ts.Pairwise (monoRel is_run)) :
    ((ts.map (runFmt is_run avg)).map parseMark).Pairwise (monoRel is_run) := by
  rw [List.map_map]
  have heq : ts.map (parseMark ∘ runFmt is_run avg) = ts.map (quant is_run avg) :=
    List.map_congr_left (fun x hx => parseMark_runFmt is_run avg x (h0 x hx))
  rw [heq]
  apply List.Pairwise.map (quant is_run avg) _ hp
  intro a b hab
  unfold monoRel at hab ⊢
  cases is_run with
  | true => exact quant_mono true avg a b hab
  | false => exact quant_mono false avg b a hab

theorem mem_chunks_contiguous {α : Type} (m : Nat) (hm : 0 < m) (l : List α) (c : List α)
    (hc : c ∈ chunks m l) : c <:+: l := by
  have h1 : c <:+: (chunks m l).flatten := List.infix_of_mem_flatten hc
  rwa [chunks_flatten m hm l.length l (le_refl _)] at h1

theorem infix_map_decomp {α β : Type} (f : α → β) (l : List α) (c : List β)
    (h : c <:+: l.map f) : ∃ vs : List α, vs.Sublist l ∧ c = vs.map f := by
  rcases h with ⟨s, t, hst⟩
  rw [List.append_assoc] at hst
  rcases List.map_eq_append_iff.mp hst.symm with ⟨l1, l2, hl, hm1, hm2⟩
  rcases List.map_eq_append_iff.mp hm2 with ⟨l21, l22, hl2, hm21, hm22⟩
  refine ⟨l21, ?_, hm21.symm⟩
  rw [hl, hl2, ← List.append_assoc]
  exact (List.infix_append l1 l21 l22).sublist

/- Concrete evaluations of make_heats used by witnesses and counterexamples. -/

theorem runFmt_zero_eval : runFmt true 0 (0 : ℚ) = ("0.00") := by
  show format_seed_time 0 0 = ("0.00")
  unfold format_seed_time
  rw [if_pos (by norm_num : (0 : ℚ) < 60)]
  unfold fmtFixed2
  have h0 : roundHalfEven (100 * 0) = 0 := by
    unfold roundHalfEven
    norm_num
  rw [h0]
  rfl

theorem make_heats_run_eval :
    make_heats [athA, athB] 2 0 0 true rngSwap =
      Except.ok ([[(athB, ("0.00")), (athA, ("0.00"))]], [athB, athA]) := by
  rw [make_heats_eq _ _ _ _ _ _ (by norm_num)]
  rw [show applyPerm rngSwap.perm [athA, athB] = [athB, athA] from rfl]
  rw [if_pos rfl]
  have hg : gaussTimes 0 0 rngSwap.gauss ([athB, athA].length) = [0, 0] := by
    show gaussTimes 0 0 rngSwap.gauss 2 = [0, 0]
    unfold gaussTimes
    rw [show List.range 2 = [0, 1] from rfl]
    simp
  rw [hg]
  have hsort : sortAsc [(0 : ℚ), 0] = [0, 0] := by
    show List.insertionSort _ [(0 : ℚ), 0] = [0, 0]
    simp [List.insertionSort, List.orderedInsert]
  rw [hsort]
  rw [show ([(0 : ℚ), 0].map (runFmt true 0)) = [("0.00"), ("0.00")] from by
    rw [List.map_cons, List.map_cons, List.map_nil, runFmt_zero_eval]]
  rfl

theorem runFmt_twelve_eval : runFmt false 12 (12 : ℚ) = ("12.00") := by
  show fmtFixed2 12 = ("12.00")
  unfold fmtFixed2
  have h12 : roundHalfEven (100 * 12) = 1200 := by
    unfold roundHalfEven
    rw [show ((100 : ℚ) * 12) = ((1200 : ℤ) : ℚ) from by norm_num, Int.floor_intCast]
    norm_num
  rw [h12]
  rfl

theorem make_heats_measured_eval :
    make_heats [athA] 1 12 0 false rngOne =
      Except.ok ([[(athA, ("12.00"))]], [athA]) := by
  rw [make_heats_eq _ _ _ _ _ _ (by norm_num)]
  rw [show applyPerm rngOne.perm [athA] = [athA] from rfl]
  rw [if_neg Bool.false_ne_true]
  have hg : gaussTimes 12 0 rngOne.gauss ([athA].length) = [12] := by
    show gaussTimes 12 0 rngOne.gauss 1 = [12]
    unfold gaussTimes
    rw [show List.range 1 = [0] from rfl]
    simp only [List.map_cons, List.map_nil, zero_mul, add_zero]
    rw [max_eq_right (by norm_num : (0 : ℚ) ≤ 12)]
  rw [hg]
  have hsort : sortDesc [(12 : ℚ)] = [12] := rfl
  rw [hsort]
  rw [show ([(12 : ℚ)].map (runFmt false 12)) = [("12.00")] from by
    rw [List.map_cons, List.map_nil, runFmt_twelve_eval]]
  rfl

/-- C1: for every entrant list of length N and max-heat-size M > 0 (with the
shuffle state a permutation of the entrant indices), make_heats succeeds and
produces exactly ceil(N/M) heats formed by contiguous slicing of the
shuffled roster (the partitioner input order), each heat of size M except
possibly the last, whose size is N mod M (or M when N mod M = 0), and zero
heats when N = 0. -/
theorem make_heats_partition (entries : List Athlete) (mhs : Int) (avg std_dev : ℚ)
    (is_run : Bool) (rng : Rng) (hm : 0 < mhs) (hv : rng.Valid entries.length) :
    ∃ hs es, make_heats entries mhs avg std_dev is_run rng = Except.ok (hs, es) ∧
      es.Perm entries ∧
      es.length = entries.length ∧
      hs.length = (entries.length + mhs.toNat - 1) / mhs.toNat ∧
      hs.map (fun heat => heat.map Prod.fst) = chunks mhs.toNat es ∧
      (∀ i : Nat, i + 1 < hs.length → (hs.map List.length).getD i 0 = mhs.toNat) ∧
      (hs ≠ [] → (hs.map List.length).getLast? =
        some (if entries.length % mhs.toNat = 0 then mhs.toNat
          else entries.length % mhs.toNat)) ∧
      (entries.length = 0 → hs = []) := by
  have hm0 : 0 < mhs.toNat := by omega
  have heq := make_heats_eq entries mhs avg std_dev is_run rng hm
  rcases make_heats_marks entries mhs avg std_dev is_run rng hm _ _ heq with
    ⟨ts, h0, hlen, hpair, hhs⟩
  set es := applyPerm rng.perm entries with hes
  set Z := es.zip (ts.map (runFmt is_run avg)) with hZ
  have hperm : es.Perm entries := applyPerm_of_valid rng.perm entries hv
  have heslen : es.length = entries.length := hperm.length_eq
  have hZlen : Z.length = entries.length := by
    rw [hZ]
    simp only [List.length_zip, List.length_map]
    omega
  have hmaplen : (chunks mhs.toNat Z).map List.length = chunkSizes mhs.toNat Z.length :=
    chunks_map_length mhs.toNat hm0 Z.length Z (le_refl _)
  refine ⟨chunks mhs.toNat Z, es, by rw [heq, hhs], hperm, heslen, ?_, ?_, ?_, ?_, ?_⟩
  · have h1 := congrArg List.length hmaplen
    rw [List.length_map] at h1
    rw [h1, hZlen, chunkSizes_length mhs.toNat hm0 entries.length entries.length (le_refl _)]
  · rw [chunks_map Prod.fst mhs.toNat hm0 Z.length Z (le_refl _)]
    congr 1
    rw [hZ]
    exact List.map_fst_zip es (ts.map (runFmt is_run avg)) (by simp; omega)
  · intro i hi
    rw [hmaplen, hZlen]
    apply chunkSizes_getD mhs.toNat hm0 entries.length entries.length i (le_refl _)
    have h1 := congrArg List.length hmaplen
    rw [List.length_map] at h1
    rw [← hZlen, ← h1]
    exact hi
  · intro hne
    rw [hmaplen, hZlen]
    apply chunkSizes_getLast? mhs.toNat hm0 entries.length entries.length (le_refl _)
    have hZne : Z ≠ [] := by
      intro hnil
      exact hne (by rw [hnil]; rfl)
    have : 0 < Z.length := List.length_pos.mpr hZne
    omega
  · intro hN
    have : es = [] := List.length_eq_zero.mp (by omega)
    rw [hZ, this]
    rfl

/-- Witness for C1 at a concrete input: three entrants, heat size two, a
valid shuffle permutation. -/
theorem make_heats_partition_witness :
    (0 : Int) < 2 ∧ Rng.Valid rngId3 ([athA, athB, athC].length) ∧
      (∃ hs es, make_heats [athA, athB, athC] 2 10 0 true rngId3 = Except.ok (hs, es) ∧
        es.Perm [athA, athB, athC] ∧
        es.length = [athA, athB, athC].length ∧
        hs.length = ([athA, athB, athC].length + (2 : Int).toNat - 1) / (2 : Int).toNat ∧
        hs.map (fun heat => heat.map Prod.fst) = chunks (2 : Int).toNat es ∧
        (∀ i : Nat, i + 1 < hs.length →
          (hs.map List.length).getD i 0 = (2 : Int).toNat) ∧
        (hs ≠ [] → (hs.map List.length).getLast? =
          some (if [athA, athB, athC].length % (2 : Int).toNat = 0 then (2 : Int).toNat
            else [athA, athB, athC].length % (2 : Int).toNat)) ∧
        ([athA, athB, athC].length = 0 → hs = [])) :=
  ⟨by norm_num, by unfold Rng.Valid; decide,
    make_heats_partition [athA, athB, athC] 2 10 0 true rngId3 (by norm_num)
      (by unfold Rng.Valid; decide)⟩

/-- C2: for every heat produced by make_heats, the underlying mark values of
the heat are monotone (non-decreasing for timed kinds, non-increasing for
measured kinds), and the formatted marks, parsed back to numeric values,
are monotone in the same direction. -/
theorem make_heats_heat_monotone (entries : List Athlete) (mhs : Int) (avg std_dev : ℚ)
    (is_run : Bool) (rng : Rng) (hm : 0 < mhs)
    (hs : List (List (Athlete × String))) (es : List Athlete)
    (h : make_heats entries mhs avg std_dev is_run rng = Except.ok (hs, es)) :
    ∀ heat ∈ hs, ∃ vs : List ℚ,
      (∀ x ∈ vs, 0 ≤ x) ∧
      heat.map Prod.snd = vs.map (runFmt is_run avg) ∧
      vs.Pairwise (monoRel is_run) ∧
      (heat.map (fun p => parseMark p.2)).Pairwise (monoRel is_run) := by
  have hm0 : 0 < mhs.toNat := by omega
  rcases make_heats_marks entries mhs avg std_dev is_run rng hm hs es h with
    ⟨ts, h0, hlen, hpair, hhs⟩
  intro heat hheat
  rw [hhs] at hheat
  have hinf : heat <:+: es.zip (ts.map (runFmt is_run avg)) :=
    mem_chunks_contiguous mhs.toNat hm0 _ heat hheat
  have hsnd : heat.map Prod.snd <:+:
      (es.zip (ts.map (runFmt is_run avg))).map Prod.snd := by
    rcases hinf with ⟨s, t, hst⟩
    exact ⟨s.map Prod.snd, t.map Prod.snd, by rw [← hst]; simp⟩
  rw [List.map_snd_zip es (ts.map (runFmt is_run avg)) (by simp; omega)] at hsnd
  rcases infix_map_decomp (runFmt is_run avg) ts (heat.map Prod.snd) hsnd with
    ⟨vs, hsub, hmapeq⟩
  refine ⟨vs, fun x hx => h0 x (hsub.subset hx), hmapeq, hpair.sublist hsub, ?_⟩
  have hcomp : heat.map (fun p => parseMark p.2) =
      (vs.map (runFmt is_run avg)).map parseMark := by
    rw [← hmapeq, List.map_map]
    rfl
  rw [hcomp]
  exact parse_marks_pairwise is_run avg vs (fun x hx => h0 x (hsub.subset hx))
    (hpair.sublist hsub)

/-- Witness for C2: a concrete timed event with two entrants in one heat. -/
theorem make_heats_heat_monotone_witness :
    (0 : Int) < 2 ∧
    make_heats [athA, athB] 2 0 0 true rngSwap =
      Except.ok ([[(athB, ("0.00")), (athA, ("0.00"))]], [athB, athA]) ∧
    (∀ heat ∈ [[(athB, ("0.00")), (athA, ("0.00"))]], ∃ vs : List ℚ,
      (∀ x ∈ vs, 0 ≤ x) ∧
      heat.map Prod.snd = vs.map (runFmt true 0) ∧
      vs.Pairwise (monoRel true) ∧
      (heat.map (fun p => parseMark p.2)).Pairwise (monoRel true)) :=
  ⟨by norm_num, make_heats_run_eval,
    make_heats_heat_monotone [athA, athB] 2 0 0 true rngSwap (by norm_num) _ _
      make_heats_run_eval⟩

/-- C10: the synthesized marks are ordered globally across the whole event:
concatenating the heats in order yields a monotone mark sequence
(non-decreasing for timed kinds, non-increasing for measured kinds), both
for the underlying values and for the formatted marks parsed back, so every
mark of an earlier heat is bounded by every mark of a later heat. -/
theorem make_heats_global_order (entries : List Athlete) (mhs : Int) (avg std_dev : ℚ)
    (is_run : Bool) (rng : Rng) (hm : 0 < mhs)
    (hs : List (List (Athlete × String))) (es : List Athlete)
    (h : make_heats entries mhs avg std_dev is_run rng = Except.ok (hs, es)) :
    ∃ ts : List ℚ,
      (∀ x ∈ ts, 0 ≤ x) ∧
      hs.flatten.map Prod.snd = ts.map (runFmt is_run avg) ∧
      ts.Pairwise (monoRel is_run) ∧
      (hs.flatten.map (fun p => parseMark p.2)).Pairwise (monoRel is_run) ∧
      (hs.map (fun heat => heat.map (fun p => parseMark p.2))).Pairwise
        (fun h1 h2 => ∀ a ∈ h1, ∀ b ∈ h2, monoRel is_run a b) := by
  have hm0 : 0 < mhs.toNat := by omega
  rcases make_heats_marks entries mhs avg std_dev is_run rng hm hs es h with
    ⟨ts, h0, hlen, hpair, hhs⟩
  have hflat : hs.flatten = es.zip (ts.map (runFmt is_run avg)) := by
    rw [hhs]
    exact chunks_flatten mhs.toNat hm0 _ _ (le_refl _)
  have hsnd : hs.flatten.map Prod.snd = ts.map (runFmt is_run avg) := by
    rw [hflat]
    exact List.map_snd_zip es (ts.map (runFmt is_run avg)) (by simp; omega)
  have hparse : (hs.flatten.map (fun p => parseMark p.2)).Pairwise (monoRel is_run) := by
    have hcomp : hs.flatten.map (fun p => parseMark p.2) =
        (ts.map (runFmt is_run avg)).map parseMark := by
      rw [← hsnd, List.map_map]
      rfl
    rw [hcomp]
    exact parse_marks_pairwise is_run avg ts h0 hpair
  refine ⟨ts, h0, hsnd, hpair, hparse, ?_⟩
  have hfp : ((hs.map (fun heat => heat.map (fun p => parseMark p.2))).flatten).Pairwise
      (monoRel is_run) := by
    rw [← List.map_flatten]
    exact hparse
  exact (List.pairwise_flatten.mp hfp).2

/-- Witness for C10: the same concrete timed event. -/
theorem make_heats_global_order_witness :
    (0 : Int) < 2 ∧
    make_heats [athA, athB] 2 0 0 true rngSwap =
      Except.ok ([[(athB, ("0.00")), (athA, ("0.00"))]], [athB, athA]) ∧
    (∃ ts : List ℚ,
      (∀ x ∈ ts, 0 ≤ x) ∧
      ([[(athB, ("0.00")), (athA, ("0.00"))]] :
        List (List (Athlete × String))).flatten.map Prod.snd =
          ts.map (runFmt true 0) ∧
      ts.Pairwise (monoRel true) ∧
      (([[(athB, ("0.00")), (athA, ("0.00"))]] :
        List (List (Athlete × String))).flatten.map
          (fun p => parseMark p.2)).Pairwise (monoRel true) ∧
      (([[(athB, ("0.00")), (athA, ("0.00"))]] :
        List (List (Athlete × String))).map
          (fun heat => heat.map (fun p => parseMark p.2))).Pairwise
        (fun h1 h2 => ∀ a ∈ h1, ∀ b ∈ h2, monoRel true a b)) :=
  ⟨by norm_num, make_heats_run_eval,
    make_heats_global_order [athA, athB] 2 0 0 true rngSwap (by norm_num) _ _
      make_heats_run_eval⟩

/-- C3: the schedule builder assigns the first event the initial clock time
and every subsequent event previous + duration + gap, preserving the input
event order; for durations [7, 7, 10] with a 3-minute gap starting at 18:00
(minute 1080) the computed start times are 18:00, 18:10, 18:20; and when
every duration plus the gap is positive the times are strictly increasing. -/
theorem schedule_times_correct :
    (∀ (d : Int) (ds : List Int) (t gap : Int),
      scheduleTimes (d :: ds) t gap = t :: scheduleTimes ds (t + d + gap) gap) ∧
    (∀ (rngs : Nat → Rng) (gap : Int) (events : List EventDef) (t : Int) (k : Nat)
        (evs : List Event),
      proc_events rngs gap events t k = Except.ok evs →
      evs.map Event.name = events.map EventDef.name ∧
      evs.map Event.time =
        (scheduleTimes (events.map EventDef.duration) t gap).map strftime12) ∧
    scheduleTimes [7, 7, 10] 1080 3 = [1080, 1090, 1100] ∧
    (scheduleTimes [7, 7, 10] 1080 3).map strftime12 =
      [("6:00 PM"), ("6:10 PM"), ("6:20 PM")] ∧
    (∀ (durations : List Int) (t gap : Int), (∀ d ∈ durations, 0 < d + gap) →
      (scheduleTimes durations t gap).Chain' (fun a b => a < b)) := by
  refine ⟨fun d ds t gap => rfl, fun rngs gap events t k evs h =>
    proc_events_ok rngs gap events t k evs h, by decide, by decide, ?_⟩
  intro durations t gap h
  exact scheduleTimes_chain durations t gap h

/-- Witness for C3: a three-event schedule starting at minute 1080 with a
3-minute gap. -/
theorem schedule_times_correct_witness :
    (proc_events rngsNil 3 [evD ("e1") 7, evD ("e2") 7, evD ("e3") 10] 1080 0 =
      Except.ok
        [{ name := ("e1"), time := ("6:00 PM"), heats := [], kind := EventKind.track,
           average := 10, std_dev := 1 },
         { name := ("e2"), time := ("6:10 PM"), heats := [], kind := EventKind.track,
           average := 10, std_dev := 1 },
         { name := ("e3"), time := ("6:20 PM"), heats := [], kind := EventKind.track,
           average := 10, std_dev := 1 }]) ∧
    ([{ name := ("e1"), time := ("6:00 PM"), heats := ([] : List (List (Athlete × String))),
        kind := EventKind.track, average := 10, std_dev := 1 },
      { name := ("e2"), time := ("6:10 PM"), heats := [], kind := EventKind.track,
        average := 10, std_dev := 1 },
      { name := ("e3"), time := ("6:20 PM"), heats := [], kind := EventKind.track,
        average := 10, std_dev := 1 }].map Event.name =
        ([evD ("e1") 7, evD ("e2") 7, evD ("e3") 10].map EventDef.name) ∧
     [{ name := ("e1"), time := ("6:00 PM"), heats := ([] : List (List (Athlete × String))),
        kind := EventKind.track, average := 10, std_dev := 1 },
      { name := ("e2"), time := ("6:10 PM"), heats := [], kind := EventKind.track,
        average := 10, std_dev := 1 },
      { name := ("e3"), time := ("6:20 PM"), heats := [], kind := EventKind.track,
        average := 10, std_dev := 1 }].map Event.time =
        (scheduleTimes ([evD ("e1") 7, evD ("e2") 7, evD ("e3") 10].map EventDef.duration)
          1080 3).map strftime12) ∧
    ((∀ d ∈ ([7, 7, 10] : List Int), (0 : Int) < d + 3) ∧
      (scheduleTimes [7, 7, 10] 1080 3).Chain' (fun a b => a < b)) := by
  have hEq : proc_events rngsNil 3 [evD ("e1") 7, evD ("e2") 7, evD ("e3") 10] 1080 0 =
      Except.ok
        [{ name := ("e1"), time := ("6:00 PM"), heats := [], kind := EventKind.track,
           average := 10, std_dev := 1 },
         { name := ("e2"), time := ("6:10 PM"), heats := [], kind := EventKind.track,
           average := 10, std_dev := 1 },
         { name := ("e3"), time := ("6:20 PM"), heats := [], kind := EventKind.track,
           average := 10, std_dev := 1 }] := by
    rfl
  refine ⟨hEq, schedule_times_correct.2.1 rngsNil 3 _ 1080 0 _ hEq,
    by decide, schedule_times_correct.2.2.2.2 [7, 7, 10] 1080 3 (by decide)⟩

/-- C4: seed-time formatting.  Mean 59.9 selects the plain two-decimal
seconds format.  Mean 60 selects the minutes:seconds format whose seconds
component has width 4 and denotes the value truncated (not rounded) to one
decimal.  The plain format has exactly two decimal digits and denotes the
value rounded to hundredths.  Value 187.36 with any mean at least 60
formats as 3:07.3. -/
theorem format_seed_time_correct :
    (∀ v : ℚ, format_seed_time v (599 / 10) = fmtFixed2 v) ∧
    (∀ v : ℚ, 0 ≤ v → ∃ ip fp : List Char,
      (format_seed_time v 60).data = ip ++ ':' :: fp ∧
      fp.length = 4 ∧
      parseMark (format_seed_time v 60) = floorTenths v ∧
      parseNatChars ip = (⌊v / 60⌋).toNat) ∧
    (∀ v : ℚ, 0 ≤ v → ∃ ip fp : List Char,
      (fmtFixed2 v).data = ip ++ '.' :: fp ∧
      fp.length = 2 ∧
      (∀ c ∈ fp, c.isDigit = true) ∧
      parseMark (fmtFixed2 v) = rhe2 v) ∧
    (∀ mean : ℚ, 60 ≤ mean → format_seed_time (18736 / 100) mean = ("3:07.3")) := by
  refine ⟨?_, ?_, ?_, ?_⟩
  · intro v
    unfold format_seed_time
    rw [if_pos (by norm_num : (599 / 10 : ℚ) < 60)]
  · intro v hv
    refine ⟨renderNat (⌊v / 60⌋).toNat,
      pad2 ((⌊pyMod v 60 * 10⌋).toNat / 10) ++ '.' ::
        [digitChar ((⌊pyMod v 60 * 10⌋).toNat % 10)],
      format_seed_time_data_ge60 v 60 (le_refl 60) hv, by simp [pad2],
      parseMark_format_seed_time_ge60 v 60 (le_refl 60) hv,
      parseNatChars_renderNat _⟩
  · intro v hv
    refine ⟨renderNat ((roundHalfEven (100 * v)).toNat / 100),
      pad2 ((roundHalfEven (100 * v)).toNat % 100),
      fmtFixed2_data v hv, by simp [pad2],
      pad2_isDigit _ (by omega),
      parseMark_fmtFixed2 v hv⟩
  · intro mean hmean
    have hf1 : ⌊(18736 / 100 : ℚ) / 60⌋ = 3 := by
      apply Int.floor_eq_iff.mpr
      constructor <;> norm_num
    have hf2 : ⌊pyMod (18736 / 100 : ℚ) 60 * 10⌋ = 73 := by
      unfold pyMod
      rw [hf1]
      apply Int.floor_eq_iff.mpr
      constructor <;> push_cast <;> norm_num
    unfold format_seed_time
    rw [if_neg (not_lt.mpr hmean), hf1, hf2]
    rfl

/-- Witness for C4: the minutes:seconds shape at value 0 with mean 60, and
the concrete 187.36 example at mean 60. -/
theorem format_seed_time_correct_witness :
    ((0 : ℚ) ≤ 0 ∧ ∃ ip fp : List Char,
      (format_seed_time 0 60).data = ip ++ ':' :: fp ∧
      fp.length = 4 ∧
      parseMark (format_seed_time 0 60) = floorTenths 0 ∧
      parseNatChars ip = (⌊(0 : ℚ) / 60⌋).toNat) ∧
    ((60 : ℚ) ≤ 60 ∧ format_seed_time (18736 / 100) 60 = ("3:07.3")) :=
  ⟨⟨le_refl 0, format_seed_time_correct.2.1 0 (le_refl 0)⟩,
    ⟨le_refl 60, format_seed_time_correct.2.2.2 60 (le_refl 60)⟩⟩

/-- C5 counterexample: a measured-kind mark is formatted as "12.00" — a
fixed two-decimal value whose characters are all digits or the decimal
point, ending in a digit — so no trailing unit suffix is appended. -/
theorem measured_mark_no_unit_counterexample :
    make_heats [athA] 1 12 0 false rngOne =
      Except.ok ([[(athA, ("12.00"))]], [athA]) ∧
    (("12.00").data.all (fun c => c.isDigit || c == '.')) = true ∧
    (("12.00").data.all (fun c => !c.isAlpha)) = true ∧
    ("12.00").back.isDigit = true :=
  ⟨make_heats_measured_eval, by decide, by decide, by decide⟩

/-- C5 amended: every measured-kind (is_run = false) mark is the fixed
two-decimal rendering of a non-negative value, with no unit suffix: its
characters are digits and the decimal point only. -/
theorem measured_mark_two_decimals (entries : List Athlete) (mhs : Int) (avg std_dev : ℚ)
    (rng : Rng) (hm : 0 < mhs)
    (hs : List (List (Athlete × String))) (es : List Athlete)
    (h : make_heats entries mhs avg std_dev false rng = Except.ok (hs, es)) :
    ∀ heat ∈ hs, ∀ p ∈ heat, ∃ v : ℚ, 0 ≤ v ∧ p.2 = fmtFixed2 v ∧
      ((p.2).data.all (fun c => c.isDigit || c == '.')) = true := by
  have hm0 : 0 < mhs.toNat := by omega
  rcases make_heats_marks entries mhs avg std_dev false rng hm hs es h with
    ⟨ts, h0, hlen, hpair, hhs⟩
  intro heat hheat p hp
  rw [hhs] at hheat
  have hinf : heat <:+: es.zip (ts.map (runFmt false avg)) :=
    mem_chunks_contiguous mhs.toNat hm0 _ heat hheat
  have hpz : p ∈ es.zip (ts.map (runFmt false avg)) := hinf.sublist.subset hp
  have hsnd : p.2 ∈ ts.map (runFmt false avg) := by
    rcases p with ⟨a, s⟩
    exact (List.of_mem_zip hpz).2
  rcases List.mem_map.mp hsnd with ⟨v, hv, hfv⟩
  refine ⟨v, h0 v hv, hfv.symm, ?_⟩
  rw [List.all_eq_true]
  intro c hc
  rw [← hfv] at hc
  rcases mem_fmtFixed2_digit_or_dot v (h0 v hv) c hc with hd | hd
  · simp [hd]
  · subst hd
    decide

/-- Witness for C5 amended: the concrete measured event. -/
theorem measured_mark_two_decimals_witness :
    (0 : Int) < 1 ∧
    make_heats [athA] 1 12 0 false rngOne =
      Except.ok ([[(athA, ("12.00"))]], [athA]) ∧
    (∀ heat ∈ [[(athA, ("12.00"))]], ∀ p ∈ heat, ∃ v : ℚ, 0 ≤ v ∧ p.2 = fmtFixed2 v ∧
      ((p.2).data.all (fun c => c.isDigit || c == '.')) = true) :=
  ⟨by norm_num, make_heats_measured_eval,
    measured_mark_two_decimals [athA] 1 12 0 rngOne (by norm_num) _ _
      make_heats_measured_eval⟩

/-- C6 counterexample: make_heats, downstream of the parser, changes the
order of the entry list it is given: with shuffle permutation [1, 0] the
list [athA, athB] comes back as [athB, athA]. -/
theorem entries_shuffled_counterexample :
    make_heats [athA, athB] 2 0 0 true rngSwap =
      Except.ok ([[(athB, ("0.00")), (athA, ("0.00"))]], [athB, athA]) ∧
    [athB, athA] ≠ [athA, athB] :=
  ⟨make_heats_run_eval, by decide⟩

/-- C6 amended: make_heats reorders (shuffles) the event entry list in
place; the reordered list is a permutation of the original — no entrant is
added or removed downstream of the parser — and it is exactly the roster
the heats are built over. -/
theorem make_heats_entries_perm (entries : List Athlete) (mhs : Int) (avg std_dev : ℚ)
    (is_run : Bool) (rng : Rng) (hm : 0 < mhs) (hv : rng.Valid entries.length)
    (hs : List (List (Athlete × String))) (es : List Athlete)
    (h : make_heats entries mhs avg std_dev is_run rng = Except.ok (hs, es)) :
    es = applyPerm rng.perm entries ∧ es.Perm entries ∧
      hs.flatten.map Prod.fst = es := by
  have hm0 : 0 < mhs.toNat := by omega
  rcases make_heats_ok_shape entries mhs avg std_dev is_run rng hm hs es h with ⟨hes, _⟩
  rcases make_heats_marks entries mhs avg std_dev is_run rng hm hs es h with
    ⟨ts, h0, hlen, hpair, hhs⟩
  refine ⟨hes, hes ▸ applyPerm_of_valid rng.perm entries hv, ?_⟩
  rw [hhs, chunks_flatten mhs.toNat hm0 _ _ (le_refl _)]
  exact List.map_fst_zip es (ts.map (runFmt is_run avg)) (by simp; omega)

/-- Witness for C6 amended: the concrete shuffled event. -/
theorem make_heats_entries_perm_witness :
    (0 : Int) < 2 ∧ Rng.Valid rngSwap ([athA, athB].length) ∧
    make_heats [athA, athB] 2 0 0 true rngSwap =
      Except.ok ([[(athB, ("0.00")), (athA, ("0.00"))]], [athB, athA]) ∧
    ([athB, athA] = applyPerm rngSwap.perm [athA, athB] ∧
      ([athB, athA] : List Athlete).Perm [athA, athB] ∧
      ([[(athB, ("0.00")), (athA, ("0.00"))]] :
        List (List (Athlete × String))).flatten.map Prod.fst = [athB, athA]) :=
  ⟨by norm_num, by unfold Rng.Valid; decide, make_heats_run_eval,
    make_heats_entries_perm [athA, athB] 2 0 0 true rngSwap (by norm_num)
      (by unfold Rng.Valid; decide) _ _ make_heats_run_eval⟩

/-- C7 counterexample: no configuration-time validation exists.  The
EventDef constructor accepts a negative duration and a negative
max-heat-size; a negative max-heat-size makes make_heats silently return
zero heats, and a zero max-heat-size surfaces only as a runtime range()
error during heat generation, not at configuration-build time. -/
theorem no_config_validation_counterexample :
    (EventDef.mk ("X") (-5) [] EventKind.track (-1) 10 1).duration = -5 ∧
    (EventDef.mk ("X") (-5) [] EventKind.track (-1) 10 1).max_heat_size = -1 ∧
    make_heats [athA, athB] (-1) 10 1 true rngSwap = Except.ok ([], [athB, athA]) ∧
    make_heats [athA, athB] 0 10 1 true rngSwap =
      Except.error ("range() arg 3 must not be zero") :=
  ⟨rfl, rfl, rfl, rfl⟩

/-- C7 amended: the code performs no configuration-time validation.  The
EventDef constructor records any duration and max-heat-size unchecked; a
zero max-heat-size raises the range() error only when heats are generated,
and a negative max-heat-size silently produces zero heats. -/
theorem invalid_heat_size_behavior :
    (∀ (entries : List Athlete) (avg std_dev : ℚ) (is_run : Bool) (rng : Rng),
      make_heats entries 0 avg std_dev is_run rng =
        Except.error ("range() arg 3 must not be zero")) ∧
    (∀ (entries : List Athlete) (mhs : Int) (avg std_dev : ℚ) (is_run : Bool) (rng : Rng),
      mhs < 0 →
      make_heats entries mhs avg std_dev is_run rng =
        Except.ok ([], applyPerm rng.perm entries)) ∧
    (∀ (name : String) (dur mhs : Int) (ent : List Athlete) (kind : EventKind)
        (avg std_dev : ℚ),
      (EventDef.mk name dur ent kind mhs avg std_dev).duration = dur ∧
      (EventDef.mk name dur ent kind mhs avg std_dev).max_heat_size = mhs) := by
  refine ⟨?_, ?_, fun name dur mhs ent kind avg std_dev => ⟨rfl, rfl⟩⟩
  · intro entries avg std_dev is_run rng
    simp only [make_heats]
    rw [show pyRange 0 ((applyPerm rng.perm entries).length : Int) 0 = none from by
      unfold pyRange
      rw [if_pos rfl]]
  · intro entries mhs avg std_dev is_run rng hneg
    simp only [make_heats]
    have hlen0 : pyRangeLen 0 ((applyPerm rng.perm entries).length : Int) mhs = 0 := by
      unfold pyRangeLen
      rw [if_neg (by omega)]
      set n := (applyPerm rng.perm entries).length
      have hb : (0 : Int) < -mhs := by omega
      have ha : (0 : Int) - (n : Int) + -mhs - 1 < -mhs := by omega
      rcases le_or_lt 0 ((0 : Int) - (n : Int) + -mhs - 1) with hc | hc
      · rw [Int.ediv_eq_zero_of_lt hc ha]
        rfl
      · have hle : ((0 : Int) - (n : Int) + -mhs - 1) / -mhs ≤ 0 / -mhs :=
          Int.ediv_le_ediv hb (by omega)
        rw [Int.zero_ediv] at hle
        omega
    rw [show pyRange 0 ((applyPerm rng.perm entries).length : Int) mhs =
        some [] from by
      unfold pyRange
      rw [if_neg (by omega), hlen0]
      rfl]
    rfl

/-- Witness for C7 amended: a negative max-heat-size on a one-entrant list. -/
theorem invalid_heat_size_behavior_witness :
    (-1 : Int) < 0 ∧
    make_heats [athA] (-1) 10 1 true rngOne =
      Except.ok ([], applyPerm rngOne.perm [athA]) :=
  ⟨by norm_num, invalid_heat_size_behavior.2.1 [athA] (-1) 10 1 true rngOne (by norm_num)⟩

/-- C8: the mark synthesizer is deterministic in its random state: two runs
of make_heats over the same entrant list with equal random states (the
state a fixed seed of the global generator determines) produce identical
mark sequences and identical heat assignments. -/
theorem make_heats_deterministic (entries : List Athlete) (mhs : Int) (avg std_dev : ℚ)
    (is_run : Bool) (rng1 rng2 : Rng) (hp : rng1.perm = rng2.perm)
    (hg : ∀ k, rng1.gauss k = rng2.gauss k) :
    make_heats entries mhs avg std_dev is_run rng1 =
      make_heats entries mhs avg std_dev is_run rng2 := by
  simp only [make_heats, hp]
  have hgt : gaussTimes avg std_dev rng1.gauss (applyPerm rng2.perm entries).length =
      gaussTimes avg std_dev rng2.gauss (applyPerm rng2.perm entries).length := by
    unfold gaussTimes
    exact List.map_congr_left (fun k _ => by rw [hg k])
  rw [hgt]

/-- Witness for C8: two runs with the same concrete random state. -/
theorem make_heats_deterministic_witness :
    (rngSwap.perm = rngSwap.perm ∧ (∀ k, rngSwap.gauss k = rngSwap.gauss k)) ∧
    make_heats [athA, athB] 2 0 0 true rngSwap =
      make_heats [athA, athB] 2 0 0 true rngSwap :=
  ⟨⟨rfl, fun _ => rfl⟩,
    make_heats_deterministic [athA, athB] 2 0 0 true rngSwap rngSwap rfl (fun _ => rfl)⟩

/-- C9: when the event lookup or the athlete lookup fails for a pairing, the
parser leaves the accumulated entry map unchanged and records exactly one
diagnostic for that pairing (without aborting); in particular a batch of
rows naming only unresolvable athletes leaves every event unchanged. -/
theorem parse_entries_skips_failed_lookups :
    (∀ (name_map : String → Option Athlete) (event_map : String → Option EventDef)
        (athlete_name : String) (m : List (String × List Athlete)) (d : List String)
        (label : String),
      event_map label = none ∨ name_map athlete_name = none →
      (process_pairing name_map event_map athlete_name (m, d) label).1 = m ∧
      (process_pairing name_map event_map athlete_name (m, d) label).2.length =
        d.length + 1) ∧
    (∀ (rows : List Row) (events : List EventDef) (name_map : String → Option Athlete)
        (event_map : String → Option EventDef),
      (∀ row ∈ rows, name_map (normalizeStr row.name) = none) →
      (parse_entries rows events name_map event_map).1 = events) :=
  ⟨process_pairing_fail, parse_entries_unresolved⟩

/-- Witness for C9: an unresolvable pairing and a one-row batch with an
unresolvable athlete. -/
theorem parse_entries_skips_failed_lookups_witness :
    (((fun _ : String => (none : Option EventDef)) ("100m") = none ∨
        (fun _ : String => (none : Option Athlete)) ("bob") = none) ∧
      ((process_pairing (fun _ => none) (fun _ => none) ("bob")
          ([], []) ("100m")).1 = [] ∧
        (process_pairing (fun _ => none) (fun _ => none) ("bob")
          ([], []) ("100m")).2.length = ([] : List String).length + 1)) ∧
    ((∀ row ∈ [rowX],
        (fun _ : String => (none : Option Athlete)) (normalizeStr row.name) = none) ∧
      (parse_entries [rowX] [evD ("e1") 7] (fun _ => none) (fun _ => none)).1 =
        [evD ("e1") 7]) :=
  ⟨⟨Or.inl rfl,
      parse_entries_skips_failed_lookups.1 (fun _ => none) (fun _ => none) ("bob")
        [] [] ("100m") (Or.inl rfl)⟩,
    ⟨fun _ _ => rfl,
      parse_entries_skips_failed_lookups.2 [rowX] [evD ("e1") 7] (fun _ => none)
        (fun _ => none) (fun _ _ => rfl)⟩⟩
